import Mathlib

/-!
Verification of the thoughtvault semantic-memory engine.

This file gives a shallow embedding, in Lean 4, of the core of the
repository (src/index.py, src/search.py, src/lib/db.py, src/lib/chunker.py,
src/lib/embeddings.py, src/lib/faiss_index.py), and proves or refutes the
frozen behavioural claims about it.

Modelling conventions:
* Python floats are modelled as rationals (`ℚ`); `x ** 0.5` (square root),
  which is irrational in general, is kept abstract: functions that take a
  square root receive it as an explicit function argument, and the FAISS
  L2-normalisation of the query is represented by its defining property
  (the normalised query is a positive scalar multiple of the raw query).
* 32-bit floats stored in blobs are modelled by their IEEE-754 bit
  patterns, i.e. natural numbers `< 2^32`; `struct.pack`/`struct.unpack`
  then become little-endian byte (de)serialisation of those words.
* `hashlib.md5` is an external library function; it is passed in as an
  abstract `String → String` argument wherever the code hashes content.
* The SQLite `chunks` table is modelled as a list of rows in rowid order;
  `INSERT OR REPLACE` removes the conflicting `(source_path, chunk_index)`
  row and appends a fresh row with the next autoincrement id.
* Filesystem enumeration (`rglob` plus `should_skip`) and `chunk_text`
  (regex splitting) are environment inputs: an indexing run receives the
  list of valid files, each carrying its path, mtime, context prefix and
  the list of chunk bodies `chunk_text` produced for it.
* The query cache's LRU bookkeeping and the telemetry writes are not
  modelled; no claim concerns them.
-/

namespace ThoughtVault

/-! ### Data model (src/lib/db.py) -/

/-- `EMBEDDING_DIM = 768` from src/lib/db.py. -/
def EMBEDDING_DIM : Nat := 768

/-- A row of the `chunks` table. -/
structure Chunk where
  id : Nat
  content : String
  source : String
  chunkIndex : Nat
  embedding : List ℚ
  contentHash : String
  mtime : Option ℚ
deriving DecidableEq, Repr

/-- The `chunks` table in rowid order, plus the autoincrement counter. -/
structure DB where
  chunks : List Chunk
  nextId : Nat
deriving DecidableEq, Repr

/-- The rows of a given `source_path`, in rowid order. -/
def rowsOf (db : DB) (p : String) : List Chunk :=
  db.chunks.filter (fun c => decide (c.source = p))

/-- `get_file_mtime` (db.py): `SELECT file_mtime WHERE source_path = ? LIMIT 1`;
a `NULL` stored mtime and a missing row both come back as `None`. -/
def get_file_mtime (db : DB) (p : String) : Option ℚ :=
  (db.chunks.find? (fun c => decide (c.source = p))).bind (fun c => c.mtime)

/-- `delete_source` (db.py): `DELETE FROM chunks WHERE source_path = ?`,
returning the deleted row count. -/
def delete_source (db : DB) (p : String) : DB × Nat :=
  (⟨db.chunks.filter (fun c => decide (¬ c.source = p)), db.nextId⟩,
   (db.chunks.filter (fun c => decide (c.source = p))).length)

/-- `store_chunk` (db.py): `INSERT OR REPLACE` on `UNIQUE(source_path,
chunk_index)` — the conflicting row (if any) is removed and a fresh row with
a new autoincrement rowid is appended.  The embedding is persisted as given:
the code packs it with `_pack_embedding`, which accepts any length.  Returns
`lastrowid`. -/
def store_chunk (db : DB) (content source : String) (idx : Nat) (emb : List ℚ)
    (content_hash : String) (mt : Option ℚ) : DB × Nat :=
  (⟨db.chunks.filter (fun c => decide (¬ (c.source = source ∧ c.chunkIndex = idx))) ++
      [⟨db.nextId, content, source, idx, emb, content_hash, mt⟩],
    db.nextId + 1⟩,
   db.nextId)

/-- `get_embeddings_only` (db.py): `SELECT id, source_path, chunk_index,
embedding FROM chunks`. -/
def get_embeddings_only (db : DB) : List (Nat × String × Nat × List ℚ) :=
  db.chunks.map (fun c => (c.id, c.source, c.chunkIndex, c.embedding))

/-- `get_all_embeddings` (db.py). -/
def get_all_embeddings (db : DB) : List (Nat × String × String × Nat × List ℚ) :=
  db.chunks.map (fun c => (c.id, c.content, c.source, c.chunkIndex, c.embedding))

/-- `get_chunks_by_ids` (db.py), as an association list keyed by id. -/
def get_chunks_by_ids (db : DB) (ids : List Nat) : List (Nat × String × String × Nat) :=
  (db.chunks.filter (fun c => ids.contains c.id)).map
    (fun c => (c.id, c.content, c.source, c.chunkIndex))

/-- `get_indexed_files` (db.py): `SELECT DISTINCT source_path`. -/
def get_indexed_files (db : DB) : List String :=
  (db.chunks.map (fun c => c.source)).dedup

/-- `get_stats` (db.py): `(total_chunks, total_files)`. -/
def get_stats (db : DB) : Nat × Nat :=
  (db.chunks.length, (db.chunks.map (fun c => c.source)).dedup.length)

/-! ### Packed embeddings (src/lib/db.py `_pack_embedding`/`_unpack_embedding`)

`struct.pack(f'{n}f', *v)` writes each value as a little-endian 32-bit
float.  Values are modelled by their 32-bit patterns (naturals `< 2^32`);
a pattern `w` serialises to the four bytes `w % 256, w/256 % 256,
w/256² % 256, w/256³ % 256`. -/

/-- `_pack_embedding`: each 32-bit word becomes four little-endian bytes. -/
def _pack_embedding (v : List Nat) : List Nat :=
  v.flatMap (fun w => [w % 256, w / 256 % 256, w / 65536 % 256, w / 16777216 % 256])

/-- `_unpack_embedding`: reads `len(blob) // 4` little-endian 32-bit words. -/
def _unpack_embedding : List Nat → List Nat
  | b0 :: b1 :: b2 :: b3 :: rest =>
      (b0 + 256 * b1 + 65536 * b2 + 16777216 * b3) :: _unpack_embedding rest
  | _ => []

/-! ### Embedding client (src/lib/embeddings.py)

`embed` performs an HTTP POST; it is modelled by an oracle
`h : String → Option (List ℚ)` where `none` stands for a raised exception
(`EmbedUnavailable` / `EmbedBadResponse`). -/

/-- The batch loop of `embed_batch`: `for i in range(0, len(texts), batch_size)`
with `batch_size = 32`, appending `None` for a text whose `embed` call raises.
The fuel argument (initially `texts.length`) only justifies termination. -/
def embed_batch_aux (h : String → Option (List ℚ)) : Nat → List String → List (Option (List ℚ))
  | 0, _ => []
  | _, [] => []
  | fuel + 1, t :: ts =>
      ((t :: ts).take 32).map h ++ embed_batch_aux h fuel ((t :: ts).drop 32)

/-- `embed_batch` (embeddings.py). -/
def embed_batch (h : String → Option (List ℚ)) (texts : List String) :
    List (Option (List ℚ)) :=
  embed_batch_aux h texts.length texts

/-- `sum(x * y for x, y in zip(a, b))`. -/
def dotList (a b : List ℚ) : ℚ := ((a.zip b).map (fun p => p.1 * p.2)).sum

/-- `sum(x * x for x in a)`, the squared L2 norm. -/
def sumSq (a : List ℚ) : ℚ := (a.map (fun x => x * x)).sum

/-- `cosine_similarity` (embeddings.py).  `** 0.5` is the abstract square
root `sqrtFn`; the guard `norm_a == 0 or norm_b == 0` is taken verbatim. -/
def cosine_similarity (sqrtFn : ℚ → ℚ) (a b : List ℚ) : ℚ :=
  let dot := dotList a b
  let norm_a := sqrtFn (sumSq a)
  let norm_b := sqrtFn (sumSq b)
  if norm_a = 0 ∨ norm_b = 0 then 0 else dot / (norm_a * norm_b)

/-! ### Chunker (src/lib/chunker.py)

`chunk_text` (regex splitting and paragraph packing) is an environment
input: a `FileInfo` carries the chunk bodies it produced for the file,
together with the context prefix `extract_context` computed.  `chunk_file`
then numbers the prefixed chunks 0-based, exactly as
`[(context + chunk, i, str(path)) for i, chunk in enumerate(chunks)]`. -/

/-- A file on disk as the indexer sees it: its path, stat mtime, context
prefix and the chunk bodies `chunk_text` yields for its content. -/
structure FileInfo where
  path : String
  mtime : ℚ
  ctx : String
  rawChunks : List String
deriving DecidableEq, Repr

/-- `chunk_file` (chunker.py): context-prefixed chunks with 0-based indices. -/
def chunk_file (f : FileInfo) : List (String × Nat × String) :=
  f.rawChunks.enum.map (fun p => (f.ctx ++ p.2, p.1, f.path))

/-! ### Vector index (src/lib/faiss_index.py)

The snapshot's metadata sidecar is a list of `(id, source_path,
chunk_index)` triples in row order; `Option` distinguishes "snapshot files
absent" from an empty list.  `IndexFlatIP.search` is exact inner-product
search; it is modelled as a stable descending sort of the row indices by
score.  `faiss.normalize_L2` divides the query by its L2 norm, so the
searched query `nq` is a positive scalar multiple of the raw query; the
model takes `nq` directly. -/

/-- The ranking relation of the inner-product scan: row `i` comes before
row `j` when its score against the (normalised) query is at least as
high. -/
def faissRank (rows : List (List ℚ)) (nq : List ℚ) (i j : Nat) : Prop :=
  dotList (rows.getD j []) nq ≤ dotList (rows.getD i []) nq

instance faissRank.instDecRel (rows : List (List ℚ)) (nq : List ℚ) :
    DecidableRel (faissRank rows nq) := fun i j => by
  unfold faissRank
  infer_instance

/-- The row indices returned by `index.search(nq, min(top_k * 2, ntotal))`:
all rows ranked by inner product with `nq` (descending, ties by row order),
truncated to `min(top_k * 2, ntotal)`. -/
def faissSel (rows : List (List ℚ)) (nq : List ℚ) (top_k : Nat) : List Nat :=
  (List.insertionSort (faissRank rows nq)
    (List.range rows.length)).take (min (top_k * 2) rows.length)

/-- `search` (faiss_index.py): each returned row index is looked up in the
metadata sidecar (indices out of metadata range are dropped, as in the
`idx >= 0 and idx < len(metadata)` guard) and reported as
`(id, source_path, chunk_index, score)`. -/
def faiss_search (rows : List (List ℚ)) (md : List (Nat × String × Nat))
    (nq : List ℚ) (top_k : Nat) : List (Nat × String × Nat × ℚ) :=
  (faissSel rows nq top_k).filterMap (fun i =>
    match md.get? i with
    | some m => some (m.1, m.2.1, m.2.2, dotList (rows.getD i []) nq)
    | none => none)

/-- `build_index` (faiss_index.py), restricted to the metadata sidecar (the
binary vector file is not needed by any claim).  `if not embeddings_data:
return` leaves the previous snapshot in place; otherwise the sidecar is
rewritten with `(id, source, chunk_index)` in row order. -/
def build_index (data : List (Nat × String × Nat × List ℚ))
    (old : Option (List (Nat × String × Nat))) : Option (List (Nat × String × Nat)) :=
  if data.isEmpty then old else some (data.map (fun d => (d.1, d.2.1, d.2.2.1)))

/-! ### Indexer (src/index.py) -/

/-- `file_needs_reindex` (index.py). -/
def file_needs_reindex (db : DB) (f : FileInfo) : Bool :=
  match get_file_mtime db f.path with
  | none => true
  | some stored => if |f.mtime - stored| > 1/100 then true else false

/-- An entry of the `pending_chunks` list:
`(content, source, chunk_index, file_mtime, content_hash)`. -/
structure PendingChunk where
  content : String
  source : String
  chunkIndex : Nat
  mtime : ℚ
  contentHash : String
deriving DecidableEq, Repr

/-- The in-file deduplication loop of `index_directory` (index.py lines
93–102): hash each chunk with `md5` (`hashf`), skip chunks whose hash was
already seen, and keep the original `chunk_index` of each survivor. -/
def dedupChunks (hashf : String → String) (mt : ℚ) :
    List (String × Nat × String) → List String → List PendingChunk
  | [], _ => []
  | (content, idx, source) :: rest, seen =>
      let h := hashf content
      if seen.contains h then dedupChunks hashf mt rest seen
      else ⟨content, source, idx, mt, h⟩ :: dedupChunks hashf mt rest (h :: seen)

/-- A write against the `chunks` table: a `delete_source` call with its
deleted row count, or a `store_chunk` insertion (`source`, `chunk_index`). -/
inductive Ev where
  | del : String → Nat → Ev
  | ins : String → Nat → Ev
deriving DecidableEq, Repr

/-- Rows changed in the `chunks` table by one write event. -/
def Ev.rowsChanged : Ev → Nat
  | .del _ n => n
  | .ins _ _ => 1

/-- The `source_path` an event touches. -/
def Ev.evPath : Ev → String
  | .del p _ => p
  | .ins p _ => p

/-- State threaded through the per-file loop of `index_directory`. -/
structure ISt where
  db : DB
  pending : List PendingChunk
  log : List Ev
deriving DecidableEq, Repr

/-- One iteration of the per-file loop (index.py lines 78–104): skip an
unchanged file, otherwise delete its rows, chunk it, deduplicate and append
to `pending_chunks`. -/
def processFile (hashf : String → String) (force : Bool) (st : ISt) (f : FileInfo) : ISt :=
  if force || file_needs_reindex st.db f then
    let d := delete_source st.db f.path
    let pend := dedupChunks hashf f.mtime (chunk_file f) []
    ⟨d.1, st.pending ++ pend, st.log ++ [.del f.path d.2]⟩
  else st

/-- The per-file loop over all valid files. -/
def indexLoop (hashf : String → String) (force : Bool) : List FileInfo → ISt → ISt
  | [], st => st
  | f :: fs, st => indexLoop hashf force fs (processFile hashf force st f)

/-- The orphan purge (index.py lines 63–69): `delete_source` every indexed
path no longer present on disk. -/
def purgeLoop : List String → DB → List Ev → DB × List Ev
  | [], db, log => (db, log)
  | p :: ps, db, log =>
      let d := delete_source db p
      purgeLoop ps d.1 (log ++ [.del p d.2])

/-- The store loop (index.py lines 122–130): skip pending chunks whose
embedding came back `None`, `store_chunk` the rest. -/
def storePhase : List (PendingChunk × Option (List ℚ)) → DB → List Ev → DB × List Ev
  | [], db, log => (db, log)
  | (_, none) :: rest, db, log => storePhase rest db log
  | (p, some e) :: rest, db, log =>
      let s := store_chunk db p.content p.source p.chunkIndex e p.contentHash (some p.mtime)
      storePhase rest s.1 (log ++ [.ins p.source p.chunkIndex])

/-- The observable outcome of one indexing run: the chunks table, the
vector-index snapshot metadata, and the log of chunks-table writes. -/
structure RunOut where
  db : DB
  snap : Option (List (Nat × String × Nat))
  log : List Ev
deriving DecidableEq, Repr

/-- `index_directory` (index.py): orphan purge, per-file change detection /
delete / chunk / dedup, early no-op return when nothing is pending (the
snapshot is NOT rebuilt), otherwise batch-embed, store, and rebuild the
snapshot from `get_embeddings_only`.  `h` is the embedding service, `hashf`
is `md5`, `files` the valid files found on disk. -/
def index_directory (h : String → Option (List ℚ)) (hashf : String → String)
    (force : Bool) (files : List FileInfo) (db0 : DB)
    (snap0 : Option (List (Nat × String × Nat))) : RunOut :=
  let current := files.map (fun f => f.path)
  let orphaned := (get_indexed_files db0).filter (fun p => decide (¬ p ∈ current))
  let purged := purgeLoop orphaned db0 []
  let st := indexLoop hashf force files ⟨purged.1, [], purged.2⟩
  if st.pending.isEmpty then ⟨st.db, snap0, st.log⟩
  else
    let embs := embed_batch h (st.pending.map (fun p => p.content))
    let stored := storePhase (st.pending.zip embs) st.db st.log
    ⟨stored.1, build_index (get_embeddings_only stored.1) snap0, stored.2⟩

/-! ### Retriever (src/search.py) -/

/-- A retrieval result record
`{id, content, source, chunk_index, similarity}`. -/
structure Result where
  id : Nat
  content : String
  source : String
  chunkIndex : Nat
  similarity : ℚ
deriving DecidableEq, Repr

/-- The source penalty of `mmr_rerank`: `0.15` when any already-selected
result shares the candidate's `source`, else `0`. -/
def sourcePenalty (selected : List Result) (c : Result) : ℚ :=
  if selected.any (fun s => decide (c.source = s.source)) then 3/20 else 0

/-- `mmr_score = lambda_param * candidate['similarity'] -
(1 - lambda_param) * source_penalty`. -/
def mmrScore (lam : ℚ) (selected : List Result) (c : Result) : ℚ :=
  lam * c.similarity - (1 - lam) * sourcePenalty selected c

/-- The inner argmax loop of `mmr_rerank`: running best `(best_score,
best_idx)` starts at `(-1, 0)` and is replaced only on a strictly greater
MMR score. -/
def findBestAux (lam : ℚ) (selected : List Result) :
    List Result → Nat → ℚ × Nat → ℚ × Nat
  | [], _, best => best
  | c :: rest, i, best =>
      let sc := mmrScore lam selected c
      findBestAux lam selected rest (i + 1) (if best.1 < sc then (sc, i) else best)

/-- `best_score, best_idx = -1, 0` followed by the scan over `remaining`. -/
def findBest (lam : ℚ) (selected : List Result) (remaining : List Result) : ℚ × Nat :=
  findBestAux lam selected remaining 0 (-1, 0)

/-- The `while len(selected) < top_k and remaining` loop of `mmr_rerank`:
pop the argmax candidate and append it to `selected`.  The fuel argument
only justifies termination; `mmr_rerank` supplies enough of it. -/
def mmrLoop (lam : ℚ) (top_k : Nat) : Nat → List Result → List Result → List Result
  | 0, selected, _ => selected
  | fuel + 1, selected, remaining =>
      if selected.length < top_k ∧ remaining ≠ [] then
        match remaining.get? (findBest lam selected remaining).2 with
        | some c => mmrLoop lam top_k fuel (selected ++ [c])
            (remaining.eraseIdx (findBest lam selected remaining).2)
        | none => selected
      else selected

/-- `mmr_rerank` (search.py), `lambda_param = 0.7`. -/
def mmr_rerank (results : List Result) (top_k : Nat) (lam : ℚ := 7/10) : List Result :=
  if results.length ≤ top_k then results
  else
    match results with
    | [] => []
    | r :: rest => mmrLoop lam top_k (top_k + results.length) [r] rest

/-- `recency_weight` (search.py).  `fsMtime` is the filesystem view
(`os.path.exists` + `os.path.getmtime`, `none` when the file is missing or
statting raises), `now` is `time.time()`. -/
def recency_weight (fsMtime : String → Option ℚ) (now : ℚ)
    (similarity : ℚ) (source_path : String) : ℚ :=
  let boost : ℚ :=
    match fsMtime source_path with
    | none => 0
    | some m =>
        let age_days := (now - m) / 86400
        if age_days < 1 then 3/100
        else if age_days < 7 then 1/50
        else if age_days < 30 then 1/100
        else 0
  similarity + boost

/-- The query cache key: md5 of `f"{query}:{top_k}"` — md5 is modelled by
the keyed string itself. -/
def cacheKey (query : String) (top_k : Nat) : String :=
  query ++ ":" ++ toString top_k

/-- `_cache_get`: a hit younger than `_CACHE_TTL = 300` seconds.  The LRU
bookkeeping (`move_to_end` / expiry deletion) does not affect the returned
value and is not modelled. -/
def cacheGet (cache : List (String × ℚ × List Result)) (key : String) (now : ℚ) :
    Option (List Result) :=
  match cache.find? (fun e => decide (e.1 = key)) with
  | some e => if now - e.2.1 < 300 then some e.2.2 else none
  | none => none

/-- The environment of one `search` call: the embedding service, the
FAISS snapshot (if both its files exist), the abstract square root used by
`cosine_similarity`, the L2-normalisation applied to the query vector by
`faiss.normalize_L2`, the query cache, the clock and the filesystem. -/
structure SearchEnv where
  embed : String → List ℚ
  snap : Option (List (List ℚ) × List (Nat × String × Nat))
  sqrtFn : ℚ → ℚ
  normalizeQ : List ℚ → List ℚ
  cache : List (String × ℚ × List Result)
  now : ℚ
  fsMtime : String → Option ℚ

/-- Rehydration of FAISS hits (search.py lines 124–145): fetch content by
id, fall back to a `"[content unavailable]"` placeholder built from the
index metadata. -/
def rehydrate (env : SearchEnv) (db : DB)
    (fres : List (Nat × String × Nat × ℚ)) : List Result :=
  let chunks := get_chunks_by_ids db (fres.map (fun r => r.1))
  fres.map (fun r =>
    match chunks.find? (fun c => decide (c.1 = r.1)) with
    | some c => ⟨r.1, c.2.1, c.2.2.1, c.2.2.2,
        recency_weight env.fsMtime env.now r.2.2.2 c.2.2.1⟩
    | none => ⟨r.1, "[content unavailable]", r.2.1, r.2.2.1, r.2.2.2⟩)

/-- `search` (search.py).  Returns the result list together with a flag
recording whether the embedding service was called for the query.  The
empty-store guard returns `[]` before anything else runs; on a cache hit
the query is likewise never embedded. -/
def search (env : SearchEnv) (db : DB) (query : String) (top_k : Nat) :
    List Result × Bool :=
  if (get_stats db).1 = 0 then ([], false)
  else
    match cacheGet env.cache (cacheKey query top_k) env.now with
    | some cached => (cached, false)
    | none =>
        let q := env.embed query
        match env.snap with
        | some (rows, md) =>
            let fres := faiss_search rows md (env.normalizeQ q) top_k
            (mmr_rerank (rehydrate env db fres) top_k, true)
        | none =>
            let results := (get_all_embeddings db).map (fun t =>
              ⟨t.1, t.2.1, t.2.2.1, t.2.2.2.1,
                recency_weight env.fsMtime env.now
                  (cosine_similarity env.sqrtFn q t.2.2.2.2) t.2.2.1⟩)
            let sorted := List.insertionSort
              (fun x y => Result.similarity y ≤ Result.similarity x) results
            (mmr_rerank (sorted.take (top_k * 2)) top_k, true)

/-! ### Specification predicates for the idempotence analysis -/

/-- The stored mtime of `f` matches its current mtime within the `0.01` s
tolerance of `file_needs_reindex` (so the file is skipped). -/
def MtimeOk (db : DB) (f : FileInfo) : Prop :=
  ∃ m, get_file_mtime db f.path = some m ∧ |f.mtime - m| ≤ 1/100

/-- After a run, each file is either mtime-matched in the store, or has no
rows at all and none of its (deduplicated) chunks embeds successfully —
the two situations in which a further run writes nothing for it. -/
def GoodFile (h : String → Option (List ℚ)) (hashf : String → String)
    (db : DB) (f : FileInfo) : Prop :=
  MtimeOk db f ∨ (rowsOf db f.path = [] ∧
    ∀ p ∈ dedupChunks hashf f.mtime (chunk_file f) [], h p.content = none)

/-- Every stored source is a current file, and every current file is
`GoodFile`. -/
def GoodState (h : String → Option (List ℚ)) (hashf : String → String)
    (files : List FileInfo) (db : DB) : Prop :=
  (∀ c ∈ db.chunks, c.source ∈ files.map (fun f => f.path)) ∧
    ∀ f ∈ files, GoodFile h hashf db f

/-! ### Helper lemmas -/

theorem embed_batch_aux_eq_map (h : String → Option (List ℚ)) :
    ∀ (fuel : Nat) (l : List String), l.length ≤ fuel →
      embed_batch_aux h fuel l = l.map h := by
  intro fuel
  induction fuel with
  | zero =>
    intro l hl
    have : l = [] := List.eq_nil_of_length_eq_zero (Nat.le_zero.mp hl)
    subst this
    rfl
  | succ n ih =>
    intro l hl
    match l with
    | [] => rfl
    | t :: ts =>
      show ((t :: ts).take 32).map h ++ embed_batch_aux h n ((t :: ts).drop 32) = _
      rw [ih ((t :: ts).drop 32)
        (by simp only [List.length_drop, List.length_cons] at hl ⊢; omega)]
      rw [← List.map_append, List.take_append_drop]

theorem embed_batch_eq_map (h : String → Option (List ℚ)) (texts : List String) :
    embed_batch h texts = texts.map h :=
  embed_batch_aux_eq_map h texts.length texts le_rfl

theorem sumSq_nonneg (a : List ℚ) : 0 ≤ sumSq a := by
  refine List.sum_nonneg ?_
  intro x hx
  rcases List.mem_map.mp hx with ⟨y, _, rfl⟩
  exact mul_self_nonneg y

theorem pack_cons (w : Nat) (t : List Nat) :
    _pack_embedding (w :: t) =
      w % 256 :: w / 256 % 256 :: w / 65536 % 256 :: w / 16777216 % 256 ::
        _pack_embedding t := by
  simp [_pack_embedding]

/-! ### C8 — embed_batch shape -/

/-- C8: `embed_batch(texts)` returns exactly one slot per input text
(processed sequentially in internal batches of 32, see `embed_batch_aux`);
slot `i` is the outcome of embedding text `i` — `none` exactly when that
`embed` call raised — independently of failures in other slots, so a
failure never aborts the rest of the batch. -/
theorem c8_embed_batch_slots (h : String → Option (List ℚ)) (texts : List String) :
    (embed_batch h texts).length = texts.length ∧
      ∀ i : Nat, (embed_batch h texts).get? i = (texts.get? i).map h := by
  rw [embed_batch_eq_map]
  refine ⟨List.length_map texts h, fun i => ?_⟩
  rw [List.get?_eq_getElem?, List.get?_eq_getElem?, List.getElem?_map]

/-! ### C9 — pack/unpack round trip -/

/-- C9: for every embedding vector of 32-bit float values (modelled by
their IEEE-754 bit patterns, naturals `< 2^32`), `_unpack_embedding ∘
_pack_embedding` is the identity, and the packed blob has `4 * len`
bytes.  In particular a float32-valued vector survives a pack/unpack
round trip unchanged. -/
theorem c9_pack_unpack_roundtrip (v : List Nat) (hv : ∀ w ∈ v, w < 2 ^ 32) :
    _unpack_embedding (_pack_embedding v) = v ∧
      (_pack_embedding v).length = 4 * v.length := by
  induction v with
  | nil => exact ⟨rfl, rfl⟩
  | cons w t ih =>
    have hw : w < 2 ^ 32 := hv w (List.mem_cons_self w t)
    have ht : ∀ x ∈ t, x < 2 ^ 32 := fun x hx => hv x (List.mem_cons_of_mem w hx)
    obtain ⟨ih1, ih2⟩ := ih ht
    rw [pack_cons]
    constructor
    · show (_ + 256 * _ + 65536 * _ + 16777216 * _) :: _unpack_embedding (_pack_embedding t) = _
      rw [ih1]
      have : w % 256 + 256 * (w / 256 % 256) + 65536 * (w / 65536 % 256) +
          16777216 * (w / 16777216 % 256) = w := by omega
      rw [this]
    · simp only [List.length_cons, ih2]
      omega

/-- C9 witness: a concrete float32-pattern vector round-trips. -/
theorem c9_pack_unpack_roundtrip_witness :
    _unpack_embedding (_pack_embedding [0, 1, 4294967295]) = [0, 1, 4294967295] ∧
      (_pack_embedding [0, 1, 4294967295]).length = 4 * 3 :=
  c9_pack_unpack_roundtrip [0, 1, 4294967295] (by decide)

/-! ### C10 — totality of cosine_similarity -/

/-- C10: `cosine_similarity` is total: whenever either argument has zero
L2 norm (equivalently, zero sum of squares — e.g. an all-zero or empty
vector) it returns exactly `0` instead of dividing by zero, and otherwise
it returns the dot product divided by the product of the two norms.
`sqrtFn` is the abstract square root (`** 0.5`), assumed to vanish exactly
on zero for nonnegative inputs, as the exact float square root does. -/
theorem c10_cosine_similarity_total (sqrtFn : ℚ → ℚ)
    (hsq : ∀ x : ℚ, 0 ≤ x → (sqrtFn x = 0 ↔ x = 0)) (a b : List ℚ) :
    (sumSq a = 0 ∨ sumSq b = 0 → cosine_similarity sqrtFn a b = 0) ∧
      (sumSq a ≠ 0 → sumSq b ≠ 0 →
        cosine_similarity sqrtFn a b = dotList a b / (sqrtFn (sumSq a) * sqrtFn (sumSq b))) := by
  constructor
  · intro hz
    have : sqrtFn (sumSq a) = 0 ∨ sqrtFn (sumSq b) = 0 := by
      rcases hz with hz | hz
      · exact Or.inl ((hsq _ (sumSq_nonneg a)).mpr hz)
      · exact Or.inr ((hsq _ (sumSq_nonneg b)).mpr hz)
    simp only [cosine_similarity]
    rw [if_pos this]
  · intro ha hb
    have hna : ¬ sqrtFn (sumSq a) = 0 := fun hc => ha ((hsq _ (sumSq_nonneg a)).mp hc)
    have hnb : ¬ sqrtFn (sumSq b) = 0 := fun hc => hb ((hsq _ (sumSq_nonneg b)).mp hc)
    simp only [cosine_similarity]
    rw [if_neg (by exact fun hc => hc.elim hna hnb)]

/-- C10 witness: the empty vector (zero norm) against a nonzero vector
yields exactly `0`. -/
theorem c10_cosine_similarity_total_witness :
    cosine_similarity (fun x => x) [] [1] = 0 :=
  (c10_cosine_similarity_total (fun x => x) (fun _ _ => Iff.rfl) [] [1]).1
    (Or.inl (by simp [sumSq]))

/-! ### C3 — no dimension check in store_chunk -/

/-- C3 counterexample: a chunk with a 2-element embedding (≠
`EMBEDDING_DIM = 768`) is persisted by `store_chunk`, not rejected: the
resulting table has exactly that row. -/
theorem c3_dimension_counterexample :
    ((store_chunk ⟨[], 0⟩ "x" "f.md" 0 [1, 2] "h" (some 1)).1.chunks.map
        (fun c => c.embedding)) = [[1, 2]] ∧
      ([1, 2] : List ℚ).length ≠ EMBEDDING_DIM := by
  constructor
  · simp [store_chunk]
  · norm_num [EMBEDDING_DIM]

/-- C3 (amended): `store_chunk` performs no dimension validation — a chunk
whose embedding length differs from `EMBEDDING_DIM` is persisted all the
same, with its embedding stored as given. -/
theorem c3_store_chunk_no_dim_check (db : DB) (content source : String) (idx : Nat)
    (emb : List ℚ) (content_hash : String) (mt : Option ℚ)
    (_hlen : emb.length ≠ EMBEDDING_DIM) :
    ∃ c ∈ (store_chunk db content source idx emb content_hash mt).1.chunks,
      c.embedding = emb ∧ c.content = content ∧ c.source = source ∧
        c.chunkIndex = idx := by
  refine ⟨⟨db.nextId, content, source, idx, emb, content_hash, mt⟩, ?_, rfl, rfl, rfl, rfl⟩
  simp [store_chunk]

/-- C3 witness: instantiating the amended statement at a 1-element
embedding. -/
theorem c3_store_chunk_no_dim_check_witness :
    ∃ c ∈ (store_chunk ⟨[], 0⟩ "y" "g.md" 3 [5] "hh" none).1.chunks,
      c.embedding = [5] ∧ c.content = "y" ∧ c.source = "g.md" ∧ c.chunkIndex = 3 :=
  c3_store_chunk_no_dim_check ⟨[], 0⟩ "y" "g.md" 3 [5] "hh" none (by decide)

/-! ### C6 — empty corpus short-circuit -/

/-- C6: when the store holds zero chunks, `search` returns `[]`
immediately: the result is the empty list and the embedding service is
never called (the `Bool` component of the model records whether `embed`
ran).  Being a total function, the model also cannot raise. -/
theorem c6_empty_corpus (env : SearchEnv) (db : DB) (query : String) (top_k : Nat)
    (h : db.chunks.length = 0) :
    search env db query top_k = ([], false) := by
  unfold search
  rw [if_pos]
  show (get_stats db).1 = 0
  simpa [get_stats] using h

/-- C6 witness: a concrete empty store. -/
theorem c6_empty_corpus_witness :
    search ⟨fun _ => [7], none, fun x => x, id, [], 0, fun _ => none⟩ ⟨[], 0⟩ "q" 5 =
      ([], false) :=
  c6_empty_corpus _ _ "q" 5 rfl

/-! ### C2 — chunk indices after deduplication -/

theorem dedupChunks_map_sublist (hashf : String → String) (mt : ℚ) :
    ∀ (l : List (String × Nat × String)) (seen : List String),
      List.Sublist
        ((dedupChunks hashf mt l seen).map (fun p => (p.content, p.chunkIndex, p.source)))
        l := by
  intro l
  induction l with
  | nil => intro seen; simp [dedupChunks]
  | cons t rest ih =>
    intro seen
    obtain ⟨c, i, s⟩ := t
    by_cases hmem : seen.contains (hashf c)
    · simp only [dedupChunks, hmem, if_true]
      exact (ih seen).cons _
    · simp only [dedupChunks, hmem, if_false, List.map_cons]
      exact (ih (hashf c :: seen)).cons₂ _

theorem chunk_file_indices (f : FileInfo) :
    (chunk_file f).map (fun t => t.2.1) = List.range f.rawChunks.length := by
  simp only [chunk_file, List.map_map]
  exact List.enum_map_fst f.rawChunks

/-- C2 (amended): the in-file deduplication of `index_directory` keeps the
chunker's original 0-based `chunk_index` of each surviving chunk and does
NOT renumber: for any file, the pending indices are a strictly increasing
subsequence of `0, …, N-1` (`N` the pre-dedup chunk count) whose first
element is `0` whenever the file has any chunk; dropping a duplicate that
precedes a distinct chunk therefore leaves a gap. -/
theorem c2_dedup_keeps_original_indices (hashf : String → String) (f : FileInfo) :
    List.Sublist
        ((dedupChunks hashf f.mtime (chunk_file f) []).map
          (fun p => (p.content, p.chunkIndex, p.source)))
        (chunk_file f) ∧
      ((dedupChunks hashf f.mtime (chunk_file f) []).map
        (fun p => p.chunkIndex)).Pairwise (· < ·) ∧
      (∀ p ∈ dedupChunks hashf f.mtime (chunk_file f) [],
        p.chunkIndex < f.rawChunks.length) ∧
      (f.rawChunks ≠ [] →
        ((dedupChunks hashf f.mtime (chunk_file f) []).map
          (fun p => p.chunkIndex)).head? = some 0) := by
  have hsub := dedupChunks_map_sublist hashf f.mtime (chunk_file f) []
  have hidx : List.Sublist
      ((dedupChunks hashf f.mtime (chunk_file f) []).map (fun p => p.chunkIndex))
      (List.range f.rawChunks.length) := by
    have h2 := hsub.map (fun t : String × Nat × String => t.2.1)
    rw [chunk_file_indices] at h2
    simpa [List.map_map, Function.comp] using h2
  refine ⟨hsub, (List.pairwise_lt_range _).sublist hidx, ?_, ?_⟩
  · intro p hp
    have : p.chunkIndex ∈ List.range f.rawChunks.length :=
      hidx.subset (List.mem_map_of_mem _ hp)
    exact List.mem_range.mp this
  · intro hne
    match hr : f.rawChunks, hne with
    | r :: rs, _ =>
      have hcf : chunk_file f = (f.ctx ++ r, 0, f.path) ::
          (rs.enumFrom 1).map (fun p => (f.ctx ++ p.2, p.1, f.path)) := by
        simp [chunk_file, hr, List.enum_cons]
      rw [hcf]
      simp [dedupChunks]

/-- C2 witness: on a file with chunks `A, A, B` the first surviving pending
index is `0`. -/
theorem c2_dedup_keeps_original_indices_witness :
    ((dedupChunks (fun s => s) (5 : ℚ)
        (chunk_file ⟨"f.md", 5, "", ["A", "A", "B"]⟩) []).map
      (fun p => p.chunkIndex)).head? = some 0 :=
  (c2_dedup_keeps_original_indices (fun s => s) ⟨"f.md", 5, "", ["A", "A", "B"]⟩).2.2.2
    (by decide)

/-- C2 counterexample: indexing a file whose chunker output is `A, A, B`
stores surviving chunk indices `{0, 2}` — two chunks survive, but they are
not renumbered to `0, 1`, so the claimed contiguous range `0..K-1` fails. -/
theorem c2_renumbering_counterexample :
    ((index_directory (fun _ => some [1]) (fun s => s) false
        [⟨"f.md", 5, "", ["A", "A", "B"]⟩] ⟨[], 0⟩ none).db.chunks.map
      (fun c => c.chunkIndex)) = [0, 2] ∧ ([0, 2] : List Nat) ≠ List.range 2 := by
  decide

/-! ### C5 — MMR diversity -/

theorem findBestAux_fst_le (lam : ℚ) (selected : List Result) :
    ∀ (l : List Result) (i : Nat) (best : ℚ × Nat),
      best.1 ≤ (findBestAux lam selected l i best).1 := by
  intro l
  induction l with
  | nil => intro i best; exact le_rfl
  | cons c rest ih =>
    intro i best
    simp only [findBestAux]
    refine le_trans ?_ (ih (i + 1) _)
    by_cases hlt : best.1 < mmrScore lam selected c
    · simpa [hlt] using le_of_lt hlt
    · simp [hlt]

theorem findBestAux_mem_le (lam : ℚ) (selected : List Result) :
    ∀ (l : List Result) (i : Nat) (best : ℚ × Nat) (c : Result), c ∈ l →
      mmrScore lam selected c ≤ (findBestAux lam selected l i best).1 := by
  intro l
  induction l with
  | nil => intro i best c hc; simp at hc
  | cons d rest ih =>
    intro i best c hc
    simp only [findBestAux]
    rcases List.mem_cons.mp hc with rfl | hc
    · refine le_trans ?_ (findBestAux_fst_le lam selected rest (i + 1) _)
      by_cases hlt : best.1 < mmrScore lam selected c
      · simp [hlt]
      · simpa [hlt] using le_of_not_lt hlt
    · exact ih (i + 1) _ c hc

theorem findBestAux_spec (lam : ℚ) (selected : List Result) :
    ∀ (l : List Result) (i : Nat) (best : ℚ × Nat),
      findBestAux lam selected l i best = best ∨
        ∃ j c, l.get? j = some c ∧
          findBestAux lam selected l i best = (mmrScore lam selected c, i + j) := by
  intro l
  induction l with
  | nil => intro i best; exact Or.inl rfl
  | cons d rest ih =>
    intro i best
    simp only [findBestAux]
    rcases ih (i + 1)
        (if best.1 < mmrScore lam selected d then (mmrScore lam selected d, i) else best)
      with h | ⟨j, c, hg, he⟩
    · rw [h]
      by_cases hlt : best.1 < mmrScore lam selected d
      · right
        exact ⟨0, d, rfl, by simp [hlt]⟩
      · left
        simp [hlt]
    · right
      refine ⟨j + 1, c, by simpa using hg, ?_⟩
      have hj : i + 1 + j = i + (j + 1) := by omega
      rw [he, hj]

/-- C5 (amended): in any iteration of the MMR loop with selection state
`selected` and pool `remaining`, if two candidates' similarities differ by
at most `0.001`, one candidate's source is not yet represented in
`selected` while the other's is, and the fresh candidate's similarity
exceeds `-10/7` (so that its MMR score `0.7·s` beats the `-1` sentinel the
argmax starts from — automatic for cosine-range scores `≥ -1`), then the
candidate picked in this iteration is never the already-represented one:
the fresh source is selected first.  Without the similarity lower bound
the code can pick the represented candidate (see the counterexample). -/
theorem c5_mmr_diversity (selected remaining : List Result) (a b : Result) (ia ib : Nat)
    (ha : remaining.get? ia = some a) (hb : remaining.get? ib = some b)
    (hclose : |a.similarity - b.similarity| ≤ 1/1000)
    (hfresh : sourcePenalty selected a = 0)
    (hrep : sourcePenalty selected b = 3/20)
    (hlb : -10/7 < a.similarity) :
    (findBest (7/10) selected remaining).2 ≠ ib := by
  intro hpick
  have hamem : a ∈ remaining := List.get?_mem ha
  have hA : mmrScore (7/10) selected a = 7/10 * a.similarity := by
    simp [mmrScore, hfresh]
  have hB : mmrScore (7/10) selected b = 7/10 * b.similarity - 9/200 := by
    rw [mmrScore, hrep]; ring
  have hle := findBestAux_mem_le (7/10) selected remaining 0 (-1, 0) a hamem
  have habs := abs_le.mp hclose
  unfold findBest at hpick
  rcases findBestAux_spec (7/10) selected remaining 0 (-1, 0) with h | ⟨j, c, hg, he⟩
  · rw [h] at hle
    rw [hA] at hle
    norm_num at hle
    linarith
  · rw [he] at hle hpick
    simp only at hpick
    have hj : j = ib := by omega
    subst hj
    have hcb : c = b := by
      rw [hg] at hb
      exact Option.some.inj hb
    subst hcb
    rw [hA, hB] at hle
    linarith

/-- C5 witness: with one selected result from source `a`, a repeated-source
candidate at position 0 and a fresh-source candidate at position 1 within
`0.001` in score, the pick is not position 0. -/
theorem c5_mmr_diversity_witness :
    (findBest (7/10) [⟨0, "", "a", 0, 1⟩]
        [⟨1, "", "a", 1, 1/2⟩, ⟨2, "", "b", 0, 1/2⟩]).2 ≠ 0 :=
  c5_mmr_diversity [⟨0, "", "a", 0, 1⟩] [⟨1, "", "a", 1, 1/2⟩, ⟨2, "", "b", 0, 1/2⟩]
    ⟨2, "", "b", 0, 1/2⟩ ⟨1, "", "a", 1, 1/2⟩ 1 0 rfl rfl
    (by norm_num)
    (by simp +decide [sourcePenalty])
    (by simp +decide [sourcePenalty])
    (by norm_num)

/-- C5 counterexample to the claim as stated: with candidate similarities
below the `-1` argmax sentinel, `mmr_rerank` picks the already-represented
source first even though a fresh source is within `0.001`: here the two
tail candidates tie exactly, one is from the already-selected source `a`
and one from the unseen source `b`, yet the result keeps both `a` chunks. -/
theorem c5_sentinel_counterexample :
    |(⟨1, "", "a", 1, -2⟩ : Result).similarity -
        (⟨2, "", "b", 0, -2⟩ : Result).similarity| ≤ 1/1000 ∧
      sourcePenalty [⟨0, "", "a", 0, 1⟩] ⟨2, "", "b", 0, -2⟩ = 0 ∧
      sourcePenalty [⟨0, "", "a", 0, 1⟩] ⟨1, "", "a", 1, -2⟩ = 3/20 ∧
      mmr_rerank [⟨0, "", "a", 0, 1⟩, ⟨1, "", "a", 1, -2⟩, ⟨2, "", "b", 0, -2⟩] 2 =
        [⟨0, "", "a", 0, 1⟩, ⟨1, "", "a", 1, -2⟩] := by
  refine ⟨by norm_num, by simp +decide [sourcePenalty], by simp +decide [sourcePenalty], ?_⟩
  norm_num +decide [mmr_rerank, mmrLoop, findBest, findBestAux, mmrScore, sourcePenalty,
    List.eraseIdx]

/-! ### C7 — FAISS snapshot search -/

theorem dotList_map_mul (c : ℚ) :
    ∀ v q : List ℚ, dotList v (q.map (fun x => c * x)) = c * dotList v q := by
  intro v
  induction v with
  | nil => intro q; simp [dotList]
  | cons a v ih =>
    intro q
    cases q with
    | nil => simp [dotList]
    | cons x q =>
      have hq := ih q
      simp only [dotList, List.map_cons, List.zip_cons_cons, List.sum_cons] at hq ⊢
      rw [hq]
      ring

theorem filterMap_length_of_forall_some {α β : Type} (f : α → Option β) :
    ∀ l : List α, (∀ a ∈ l, (f a).isSome) → (l.filterMap f).length = l.length := by
  intro l
  induction l with
  | nil => intro _; rfl
  | cons a t ih =>
    intro hall
    have ha := hall a (List.mem_cons_self a t)
    obtain ⟨b, hb⟩ := Option.isSome_iff_exists.mp ha
    rw [List.filterMap_cons, hb]
    simp only [List.length_cons]
    rw [ih (fun x hx => hall x (List.mem_cons_of_mem a hx))]

/-- C7: with a snapshot of `N` rows and matching metadata (`md.length = N`)
and a nonzero query — whose L2-normalisation `nq` is, by definition, a
positive multiple `c • q` of the raw query — `faiss_search` returns exactly
`min(top_k * 2, N)` results; each result is the metadata triple of its row
together with that row's inner product with the normalised query; the
selected rows are distinct, in range, and score at least as high against
`nq` as every unselected row (and ranking by `nq` coincides with ranking by
the raw query). -/
theorem c7_faiss_search (rows : List (List ℚ)) (md : List (Nat × String × Nat))
    (q nq : List ℚ) (top_k : Nat)
    (hmd : md.length = rows.length)
    (hnq : ∃ c : ℚ, 0 < c ∧ nq = q.map (fun x => c * x)) :
    (faiss_search rows md nq top_k).length = min (top_k * 2) rows.length ∧
      (∀ r ∈ faiss_search rows md nq top_k, ∃ i ∈ faissSel rows nq top_k,
        md.get? i = some (r.1, r.2.1, r.2.2.1) ∧
          r.2.2.2 = dotList (rows.getD i []) nq) ∧
      (faissSel rows nq top_k).Nodup ∧
      (∀ i ∈ faissSel rows nq top_k, i < rows.length) ∧
      (∀ i ∈ faissSel rows nq top_k, ∀ j, j < rows.length →
        j ∉ faissSel rows nq top_k →
          dotList (rows.getD j []) nq ≤ dotList (rows.getD i []) nq) ∧
      (∀ i j : Nat, dotList (rows.getD i []) nq ≤ dotList (rows.getD j []) nq ↔
        dotList (rows.getD i []) q ≤ dotList (rows.getD j []) q) := by
  obtain ⟨c, hc, rfl⟩ := hnq
  have hmem_lt : ∀ i ∈ faissSel rows (q.map (fun x => c * x)) top_k, i < rows.length := by
    intro i hi
    have hiL := (List.take_sublist _ _).subset hi
    have := (List.perm_insertionSort (faissRank rows (q.map (fun x => c * x)))
      (List.range rows.length)).subset hiL
    exact List.mem_range.mp this
  refine ⟨?_, ?_, ?_, hmem_lt, ?_, ?_⟩
  · rw [faiss_search, filterMap_length_of_forall_some]
    · show (List.take _ _).length = _
      rw [List.length_take,
        (List.perm_insertionSort _ (List.range rows.length)).length_eq,
        List.length_range]
      omega
    · intro i hi
      have hilt : i < md.length := by rw [hmd]; exact hmem_lt i hi
      have : ¬ md.get? i = none := by
        rw [List.get?_eq_none]
        omega
      cases hm : md.get? i with
      | none => exact absurd hm this
      | some m => simp [hm]
  · intro r hr
    obtain ⟨i, hi, hfi⟩ := List.mem_filterMap.mp hr
    cases hm : md.get? i with
    | none => rw [hm] at hfi; exact absurd hfi (by simp)
    | some m =>
      rw [hm] at hfi
      simp only [Option.some.injEq] at hfi
      refine ⟨i, hi, ?_, ?_⟩
      · rw [hm, ← hfi]
      · rw [← hfi]
  · have hnd : (List.insertionSort (faissRank rows (q.map (fun x => c * x)))
        (List.range rows.length)).Nodup :=
      ((List.perm_insertionSort _ _).nodup_iff).mpr (List.nodup_range _)
    exact hnd.sublist (List.take_sublist _ _)
  · intro i hi j hjlt hjns
    have hsorted : List.Pairwise (faissRank rows (q.map (fun x => c * x)))
        (List.insertionSort (faissRank rows (q.map (fun x => c * x)))
          (List.range rows.length)) := by
      haveI : IsTotal Nat (faissRank rows (q.map (fun x => c * x))) :=
        ⟨fun a b => le_total _ _⟩
      haveI : IsTrans Nat (faissRank rows (q.map (fun x => c * x))) :=
        ⟨fun _ _ _ h1 h2 => le_trans h2 h1⟩
      exact List.sorted_insertionSort _ _
    rw [← List.take_append_drop (min (top_k * 2) rows.length)
      (List.insertionSort (faissRank rows (q.map (fun x => c * x)))
        (List.range rows.length))] at hsorted
    obtain ⟨-, -, hcross⟩ := List.pairwise_append.mp hsorted
    have hjL : j ∈ List.insertionSort (faissRank rows (q.map (fun x => c * x)))
        (List.range rows.length) :=
      ((List.perm_insertionSort _ _).mem_iff).mpr (List.mem_range.mpr hjlt)
    rw [← List.take_append_drop (min (top_k * 2) rows.length)
      (List.insertionSort (faissRank rows (q.map (fun x => c * x)))
        (List.range rows.length)), List.mem_append] at hjL
    rcases hjL with hj | hj
    · exact absurd hj hjns
    · exact hcross i hi j hj
  · intro i j
    rw [dotList_map_mul, dotList_map_mul]
    exact mul_le_mul_left hc

/-- C7 witness: two one-dimensional rows, `top_k = 1`, query `[1]` (its own
normalisation with `c = 1`): exactly `min(2, 2) = 2` results come back. -/
theorem c7_faiss_search_witness :
    (faiss_search [[1], [2]] [(5, "a", 0), (6, "b", 1)] [1] 1).length =
      min (1 * 2) ([[1], [2]] : List (List ℚ)).length :=
  (c7_faiss_search [[1], [2]] [(5, "a", 0), (6, "b", 1)] [1] [1] 1 rfl
    ⟨1, by norm_num, by simp⟩).1

/-! ### C1 — orphan purge -/

theorem purge_mem : ∀ (ps : List String) (db : DB) (log : List Ev) (c : Chunk),
    c ∈ (purgeLoop ps db log).1.chunks → c ∈ db.chunks ∧ ¬ c.source ∈ ps := by
  intro ps
  induction ps with
  | nil => intro db log c hc; exact ⟨hc, by simp⟩
  | cons p ps ih =>
    intro db log c hc
    obtain ⟨hmem, hnot⟩ := ih _ _ c hc
    obtain ⟨hdb, hpred⟩ := List.mem_filter.mp hmem
    have hne : ¬ c.source = p := of_decide_eq_true hpred
    exact ⟨hdb, by simp [List.mem_cons, hne, hnot]⟩

theorem processFile_db_mem (hashf : String → String) (force : Bool) (st : ISt)
    (f : FileInfo) (c : Chunk) :
    c ∈ (processFile hashf force st f).db.chunks → c ∈ st.db.chunks := by
  unfold processFile
  by_cases hc : (force || file_needs_reindex st.db f) = true
  · rw [if_pos hc]
    intro h
    exact List.mem_of_mem_filter h
  · rw [if_neg hc]
    exact id

theorem indexLoop_db_mem (hashf : String → String) (force : Bool) :
    ∀ (fs : List FileInfo) (st : ISt) (c : Chunk),
      c ∈ (indexLoop hashf force fs st).db.chunks → c ∈ st.db.chunks := by
  intro fs
  induction fs with
  | nil => intro st c hc; exact hc
  | cons f fs ih =>
    intro st c hc
    exact processFile_db_mem hashf force st f c (ih _ c hc)

theorem chunk_file_source (f : FileInfo) :
    ∀ t ∈ chunk_file f, t.2.2 = f.path := by
  intro t ht
  obtain ⟨pr, -, rfl⟩ := List.mem_map.mp ht
  rfl

theorem dedupChunks_source (hashf : String → String) (f : FileInfo) (seen : List String) :
    ∀ p ∈ dedupChunks hashf f.mtime (chunk_file f) seen, p.source = f.path := by
  intro p hp
  have hmem : (p.content, p.chunkIndex, p.source) ∈ chunk_file f :=
    (dedupChunks_map_sublist hashf f.mtime (chunk_file f) seen).subset
      (List.mem_map_of_mem _ hp)
  exact chunk_file_source f _ hmem

theorem indexLoop_pending_mem (hashf : String → String) (force : Bool) :
    ∀ (fs : List FileInfo) (st : ISt) (p : PendingChunk),
      p ∈ (indexLoop hashf force fs st).pending →
        p ∈ st.pending ∨ p.source ∈ fs.map (fun f => f.path) := by
  intro fs
  induction fs with
  | nil => intro st p hp; exact Or.inl hp
  | cons f fs ih =>
    intro st p hp
    rcases ih _ p hp with hp' | hp'
    · revert hp'
      unfold processFile
      by_cases hc : (force || file_needs_reindex st.db f) = true
      · rw [if_pos hc]
        intro hp'
        rcases List.mem_append.mp hp' with hp'' | hp''
        · exact Or.inl hp''
        · exact Or.inr (by
            simp only [List.map_cons, List.mem_cons]
            exact Or.inl (dedupChunks_source hashf f [] p hp''))
      · rw [if_neg hc]
        exact Or.inl
    · exact Or.inr (by simp [List.mem_cons, hp'])

theorem storePhase_mem :
    ∀ (zl : List (PendingChunk × Option (List ℚ))) (db : DB) (log : List Ev) (c : Chunk),
      c ∈ (storePhase zl db log).1.chunks →
        c ∈ db.chunks ∨ ∃ pe ∈ zl, c.source = pe.1.source := by
  intro zl
  induction zl with
  | nil => intro db log c hc; exact Or.inl hc
  | cons pe rest ih =>
    intro db log c hc
    obtain ⟨p, e⟩ := pe
    cases e with
    | none =>
      rcases ih _ _ c hc with h | ⟨pe', hpe', hsrc⟩
      · exact Or.inl h
      · exact Or.inr ⟨pe', List.mem_cons_of_mem _ hpe', hsrc⟩
    | some v =>
      rcases ih _ _ c hc with h | ⟨pe', hpe', hsrc⟩
      · rcases List.mem_append.mp h with h' | h'
        · exact Or.inl (List.mem_of_mem_filter h')
        · have : c = ⟨db.nextId, p.content, p.source, p.chunkIndex, v,
              p.contentHash, some p.mtime⟩ := by simpa using h'
          exact Or.inr ⟨(p, some v), List.mem_cons_self _ _, by rw [this]⟩
      · exact Or.inr ⟨pe', List.mem_cons_of_mem _ hpe', hsrc⟩

theorem build_index_noF (data : List (Nat × String × Nat × List ℚ))
    (snap0 : Option (List (Nat × String × Nat))) (F : String)
    (hdata : ∀ d ∈ data, d.2.1 ≠ F) :
    build_index data snap0 = snap0 ∨
      ∀ m ∈ (build_index data snap0).getD [], m.2.1 ≠ F := by
  unfold build_index
  by_cases hde : data.isEmpty
  · rw [if_pos hde]
    exact Or.inl rfl
  · rw [if_neg hde]
    right
    intro m hm
    simp only [Option.getD_some] at hm
    obtain ⟨d, hd, rfl⟩ := List.mem_map.mp hm
    exact hdata d hd

/-- C1 (amended): after re-running `index_directory` over a directory from
which file `F` has been deleted (`F` is not among the enumerated files),
the store contains no chunks with `source_path = F` — this holds for every
run.  The vector-index snapshot, however, is only guaranteed F-free when
the run actually rewrites it: the run either leaves the snapshot exactly
as it was (this happens when nothing needed re-embedding — the code
returns before rebuilding — or when the rebuild receives no data), or the
rebuilt snapshot metadata contains no entry referencing `F`.  A
deletion-only run takes the first branch and may keep `F` in the snapshot
(see the counterexample). -/
theorem c1_orphan_purge (h : String → Option (List ℚ)) (hashf : String → String)
    (force : Bool) (files : List FileInfo) (db0 : DB)
    (snap0 : Option (List (Nat × String × Nat))) (F : String)
    (hF : ¬ F ∈ files.map (fun f => f.path)) :
    (∀ c ∈ (index_directory h hashf force files db0 snap0).db.chunks, c.source ≠ F) ∧
      ((index_directory h hashf force files db0 snap0).snap = snap0 ∨
        ∀ m ∈ ((index_directory h hashf force files db0 snap0).snap.getD []),
          m.2.1 ≠ F) := by
  have hpurge : ∀ c ∈ (purgeLoop ((get_indexed_files db0).filter
      (fun p => decide (¬ p ∈ files.map (fun f => f.path)))) db0 []).1.chunks,
      c.source ≠ F := by
    intro c hc hceq
    obtain ⟨hmem, hnot⟩ := purge_mem _ db0 [] c hc
    apply hnot
    apply List.mem_filter.mpr
    refine ⟨?_, ?_⟩
    · rw [hceq, get_indexed_files]
      exact List.mem_dedup.mpr (List.mem_map.mpr ⟨c, hmem, hceq⟩)
    · rw [hceq]
      simpa using hF
  have hloopdb : ∀ c ∈ (indexLoop hashf force files
      ⟨(purgeLoop ((get_indexed_files db0).filter
          (fun p => decide (¬ p ∈ files.map (fun f => f.path)))) db0 []).1, [],
        (purgeLoop ((get_indexed_files db0).filter
          (fun p => decide (¬ p ∈ files.map (fun f => f.path)))) db0 []).2⟩).db.chunks,
      c.source ≠ F := by
    intro c hc
    exact hpurge c (indexLoop_db_mem hashf force files _ c hc)
  have hpend : ∀ p ∈ (indexLoop hashf force files
      ⟨(purgeLoop ((get_indexed_files db0).filter
          (fun p => decide (¬ p ∈ files.map (fun f => f.path)))) db0 []).1, [],
        (purgeLoop ((get_indexed_files db0).filter
          (fun p => decide (¬ p ∈ files.map (fun f => f.path)))) db0 []).2⟩).pending,
      p.source ≠ F := by
    intro p hp
    rcases indexLoop_pending_mem hashf force files _ p hp with h | h
    · exact absurd h (List.not_mem_nil p)
    · intro heq
      rw [heq] at h
      exact hF h
  unfold index_directory
  dsimp only
  by_cases hemp : (indexLoop hashf force files
      ⟨(purgeLoop ((get_indexed_files db0).filter
          (fun p => decide (¬ p ∈ files.map (fun f => f.path)))) db0 []).1, [],
        (purgeLoop ((get_indexed_files db0).filter
          (fun p => decide (¬ p ∈ files.map (fun f => f.path)))) db0 []).2⟩).pending.isEmpty
  · rw [if_pos hemp]
    exact ⟨hloopdb, Or.inl rfl⟩
  · rw [if_neg hemp]
    refine ⟨?_, ?_⟩
    · intro c hc
      rcases storePhase_mem _ _ _ c hc with hcase | ⟨pe, hpe, hsrc⟩
      · exact hloopdb c hcase
      · rw [hsrc]
        exact hpend pe.1 (List.of_mem_zip hpe).1
    · refine build_index_noF _ snap0 F ?_
      intro d hd
      obtain ⟨c, hcmem, rfl⟩ := List.mem_map.mp hd
      rcases storePhase_mem _ _ _ c hcmem with hcase | ⟨pe, hpe, hsrc⟩
      · exact hloopdb c hcase
      · rw [hsrc]
        exact hpend pe.1 (List.of_mem_zip hpe).1

/-- C1 witness: deleting `b.md` and re-running over `{a.md}` (which was
re-chunked) leaves no `b.md` row in the store. -/
theorem c1_orphan_purge_witness :
    ((index_directory (fun _ => some [1]) (fun s => s) false
        [⟨"a.md", 10, "", ["x"]⟩]
        ⟨[⟨0, "ca", "a.md", 0, [1], "ha", some 10⟩,
          ⟨1, "cb", "b.md", 0, [1], "hb", some 20⟩], 2⟩
        (some [(0, "a.md", 0), (1, "b.md", 0)])).db.chunks.all
      (fun c => decide (¬ c.source = "b.md"))) = true := by
  have hrun := (c1_orphan_purge (fun _ => some [1]) (fun s => s) false
    [⟨"a.md", 10, "", ["x"]⟩]
    ⟨[⟨0, "ca", "a.md", 0, [1], "ha", some 10⟩,
      ⟨1, "cb", "b.md", 0, [1], "hb", some 20⟩], 2⟩
    (some [(0, "a.md", 0), (1, "b.md", 0)]) "b.md" (by decide)).1
  rw [List.all_eq_true]
  intro c hc
  exact decide_eq_true (hrun c hc)

/-- C1 counterexample to the claim as stated: `b.md` is deleted from disk,
`a.md` is unchanged, so the run purges `b.md` from the store but returns
before rebuilding the snapshot — the snapshot metadata still references
`b.md` after the run. -/
theorem c1_stale_snapshot_counterexample :
    (index_directory (fun _ => none) (fun s => s) false [⟨"a.md", 10, "", ["x"]⟩]
        ⟨[⟨0, "ca", "a.md", 0, [1], "ha", some 10⟩,
          ⟨1, "cb", "b.md", 0, [1], "hb", some 20⟩], 2⟩
        (some [(0, "a.md", 0), (1, "b.md", 0)])).snap =
      some [(0, "a.md", 0), (1, "b.md", 0)] ∧
    (index_directory (fun _ => none) (fun s => s) false [⟨"a.md", 10, "", ["x"]⟩]
        ⟨[⟨0, "ca", "a.md", 0, [1], "ha", some 10⟩,
          ⟨1, "cb", "b.md", 0, [1], "hb", some 20⟩], 2⟩
        (some [(0, "a.md", 0), (1, "b.md", 0)])).db.chunks.map (fun c => c.source) =
      ["a.md"] := by
  constructor <;>
    norm_num +decide [index_directory, purgeLoop, indexLoop, processFile,
      file_needs_reindex, get_file_mtime, delete_source, get_indexed_files,
      List.filter_cons, List.find?, List.dedup_cons_of_mem, List.dedup_cons_of_not_mem,
      sub_self, abs_zero]

/-! ### C4 — idempotent re-indexing: row-level toolbox -/

theorem filter_filter_subsume {α : Type} (p q : α → Bool)
    (h : ∀ a, p a = true → q a = true) :
    ∀ l : List α, (l.filter q).filter p = l.filter p := by
  intro l
  rw [List.filter_filter]
  apply List.filter_congr
  intro a _
  cases hp : p a with
  | false => simp [hp]
  | true => simp [hp, h a hp]

theorem mem_rowsOf {db : DB} {p : String} {c : Chunk} :
    c ∈ rowsOf db p ↔ c ∈ db.chunks ∧ c.source = p := by
  simp [rowsOf, List.mem_filter]

theorem find?_eq_head?_filter {α : Type} (p : α → Bool) :
    ∀ l : List α, l.find? p = (l.filter p).head? := by
  intro l
  induction l with
  | nil => rfl
  | cons a t ih =>
    cases hp : p a with
    | false =>
      rw [List.find?_cons_of_neg _ (by simp [hp]), List.filter_cons,
        if_neg (by simp [hp])]
      exact ih
    | true =>
      rw [List.find?_cons_of_pos _ (by simp [hp]), List.filter_cons,
        if_pos (by simp [hp])]
      rfl

theorem get_file_mtime_eq_rowsOf (db : DB) (p : String) :
    get_file_mtime db p = (rowsOf db p).head?.bind (fun c => c.mtime) := by
  rw [get_file_mtime, find?_eq_head?_filter]
  rfl

theorem get_file_mtime_congr {db₁ db₂ : DB} {p : String}
    (h : rowsOf db₁ p = rowsOf db₂ p) :
    get_file_mtime db₁ p = get_file_mtime db₂ p := by
  rw [get_file_mtime_eq_rowsOf, get_file_mtime_eq_rowsOf, h]

theorem file_needs_reindex_congr {db₁ db₂ : DB} {f : FileInfo}
    (h : rowsOf db₁ f.path = rowsOf db₂ f.path) :
    file_needs_reindex db₁ f = file_needs_reindex db₂ f := by
  unfold file_needs_reindex
  rw [get_file_mtime_congr h]

theorem get_file_mtime_of_rowsOf_nil {db : DB} {p : String}
    (h : rowsOf db p = []) : get_file_mtime db p = none := by
  rw [get_file_mtime_eq_rowsOf, h]
  rfl

theorem rowsOf_delete_self (db : DB) (p : String) :
    rowsOf (delete_source db p).1 p = [] := by
  apply List.filter_eq_nil_iff.mpr
  intro c hc
  have := List.of_mem_filter hc
  simp only [decide_eq_true_eq] at this ⊢
  exact this

theorem rowsOf_delete_other {q : String} (db : DB) (p : String) (hne : p ≠ q) :
    rowsOf (delete_source db q).1 p = rowsOf db p := by
  apply filter_filter_subsume
  intro a ha
  simp only [decide_eq_true_eq] at ha ⊢
  rw [ha]
  exact hne

theorem delete_source_count (db : DB) (p : String) :
    (delete_source db p).2 = (rowsOf db p).length := rfl

theorem delete_source_of_empty {db : DB} {p : String} (h : rowsOf db p = []) :
    (delete_source db p).1 = db ∧ (delete_source db p).2 = 0 := by
  constructor
  · have hfil : db.chunks.filter (fun c => decide (¬ c.source = p)) = db.chunks := by
      apply List.filter_eq_self.mpr
      intro c hc
      simp only [decide_eq_true_eq]
      intro hcp
      have : c ∈ rowsOf db p := mem_rowsOf.mpr ⟨hc, hcp⟩
      rw [h] at this
      exact absurd this (List.not_mem_nil c)
    show (⟨db.chunks.filter (fun c => decide (¬ c.source = p)), db.nextId⟩ : DB) = db
    rw [hfil]
  · rw [delete_source_count, h]
    rfl

theorem store_chunk_mem {db : DB} {content source : String} {idx : Nat}
    {e : List ℚ} {hh : String} {mt : Option ℚ} {c : Chunk} :
    c ∈ (store_chunk db content source idx e hh mt).1.chunks →
      c ∈ db.chunks ∨
        c = ⟨db.nextId, content, source, idx, e, hh, mt⟩ := by
  intro hc
  rcases List.mem_append.mp hc with h | h
  · exact Or.inl (List.mem_of_mem_filter h)
  · exact Or.inr (by simpa using h)

theorem rowsOf_store_other {q source : String} (db : DB) (content : String)
    (idx : Nat) (e : List ℚ) (hh : String) (mt : Option ℚ) (hne : q ≠ source) :
    rowsOf (store_chunk db content source idx e hh mt).1 q = rowsOf db q := by
  show ((db.chunks.filter _ ++ _).filter _) = _
  rw [List.filter_append]
  have h2 : ([(⟨db.nextId, content, source, idx, e, hh, mt⟩ : Chunk)].filter
      (fun c => decide (c.source = q))) = [] := by
    simp [hne.symm]
  rw [h2, List.append_nil]
  apply filter_filter_subsume
  intro a ha
  simp only [decide_eq_true_eq] at ha ⊢
  rw [ha]
  intro hcon
  exact hne hcon.1

theorem rowsOf_store_self_ne_nil {source : String} (db : DB) (content : String)
    (idx : Nat) (e : List ℚ) (hh : String) (mt : Option ℚ) :
    rowsOf (store_chunk db content source idx e hh mt).1 source ≠ [] := by
  intro hnil
  have hmem : (⟨db.nextId, content, source, idx, e, hh, mt⟩ : Chunk) ∈
      rowsOf (store_chunk db content source idx e hh mt).1 source := by
    apply mem_rowsOf.mpr
    refine ⟨List.mem_append.mpr (Or.inr (List.mem_singleton.mpr rfl)), rfl⟩
  rw [hnil] at hmem
  exact absurd hmem (List.not_mem_nil _)

theorem zip_map_self {α β : Type} (g : α → β) :
    ∀ l : List α, l.zip (l.map g) = l.map (fun a => (a, g a)) := by
  intro l
  induction l with
  | nil => rfl
  | cons a t ih => simp [List.zip_cons_cons, ih]

theorem dedupChunks_mtime (hashf : String → String) (mt : ℚ) :
    ∀ (l : List (String × Nat × String)) (seen : List String),
      ∀ p ∈ dedupChunks hashf mt l seen, p.mtime = mt := by
  intro l
  induction l with
  | nil => intro seen p hp; simp [dedupChunks] at hp
  | cons t rest ih =>
    intro seen p hp
    obtain ⟨c, i, s⟩ := t
    by_cases hmem : List.contains seen (hashf c)
    · rw [dedupChunks] at hp
      simp only [hmem, if_true] at hp
      exact ih seen p hp
    · rw [dedupChunks] at hp
      simp only [hmem, if_false] at hp
      rcases List.mem_cons.mp hp with rfl | hp'
      · rfl
      · exact ih (hashf c :: seen) p hp'

theorem file_needs_reindex_false_iff (db : DB) (f : FileInfo) :
    file_needs_reindex db f = false ↔ MtimeOk db f := by
  unfold file_needs_reindex MtimeOk
  cases hg : get_file_mtime db f.path with
  | none => simp
  | some m =>
    show (if |f.mtime - m| > 1/100 then true else false) = false ↔
      ∃ m', some m = some m' ∧ |f.mtime - m'| ≤ 1/100
    by_cases habs : |f.mtime - m| > 1/100
    · rw [if_pos habs]
      simp only [Bool.true_eq_false, false_iff]
      intro hok
      obtain ⟨m', hm', hle'⟩ := hok
      rw [Option.some.injEq] at hm'
      rw [← hm'] at hle'
      exact absurd habs (not_lt.mpr hle')
    · rw [if_neg habs]
      exact iff_of_true rfl ⟨m, rfl, not_lt.mp habs⟩

theorem MtimeOk_congr {db₁ db₂ : DB} {f : FileInfo}
    (h : rowsOf db₁ f.path = rowsOf db₂ f.path) :
    MtimeOk db₂ f → MtimeOk db₁ f := by
  intro hok
  obtain ⟨m, hm, hle⟩ := hok
  exact ⟨m, by rw [get_file_mtime_congr h]; exact hm, hle⟩

theorem storePhase_rowsOf_untouched :
    ∀ (zl : List (PendingChunk × Option (List ℚ))) (db : DB) (log : List Ev)
      (q : String), (∀ pe ∈ zl, pe.1.source = q → pe.2 = none) →
      rowsOf (storePhase zl db log).1 q = rowsOf db q := by
  intro zl
  induction zl with
  | nil => intro db log q _; rfl
  | cons pe rest ih =>
    intro db log q hq
    obtain ⟨p, e⟩ := pe
    cases e with
    | none =>
      exact ih db log q (fun pe' hpe' => hq pe' (List.mem_cons_of_mem _ hpe'))
    | some v =>
      have hpsrc : ¬ p.source = q := by
        intro hps
        have := hq (p, some v) (List.mem_cons_self _ _) hps
        exact Option.noConfusion this
      show rowsOf (storePhase rest _ _).1 q = rowsOf db q
      rw [ih _ _ q (fun pe' hpe' => hq pe' (List.mem_cons_of_mem _ hpe'))]
      exact rowsOf_store_other db p.content p.chunkIndex v p.contentHash
        (some p.mtime) (fun hqp => hpsrc hqp.symm)

theorem storePhase_mtime_uniform :
    ∀ (zl : List (PendingChunk × Option (List ℚ))) (db : DB) (log : List Ev)
      (q : String) (mt : ℚ),
      (∀ pe ∈ zl, pe.1.source = q → pe.1.mtime = mt) →
      (∀ c ∈ rowsOf db q, c.mtime = some mt) →
      ∀ c ∈ rowsOf (storePhase zl db log).1 q, c.mtime = some mt := by
  intro zl
  induction zl with
  | nil => intro db log q mt _ hbase c hc; exact hbase c hc
  | cons pe rest ih =>
    intro db log q mt hsl hbase c hc
    obtain ⟨p, e⟩ := pe
    cases e with
    | none =>
      exact ih db log q mt (fun pe' hpe' => hsl pe' (List.mem_cons_of_mem _ hpe'))
        hbase c hc
    | some v =>
      refine ih _ _ q mt (fun pe' hpe' => hsl pe' (List.mem_cons_of_mem _ hpe'))
        ?_ c hc
      intro c' hc'
      obtain ⟨hc'mem, hc'src⟩ := mem_rowsOf.mp hc'
      rcases store_chunk_mem hc'mem with hold | hnew
      · exact hbase c' (mem_rowsOf.mpr ⟨hold, hc'src⟩)
      · rw [hnew]
        have hps : p.source = q := by rw [hnew] at hc'src; exact hc'src
        have := hsl (p, some v) (List.mem_cons_self _ _) hps
        show some p.mtime = some mt
        rw [this]

theorem storePhase_rowsOf_ne_nil_pres :
    ∀ (zl : List (PendingChunk × Option (List ℚ))) (db : DB) (log : List Ev)
      (q : String), rowsOf db q ≠ [] → rowsOf (storePhase zl db log).1 q ≠ [] := by
  intro zl
  induction zl with
  | nil => intro db log q hq; exact hq
  | cons pe rest ih =>
    intro db log q hq
    obtain ⟨p, e⟩ := pe
    cases e with
    | none => exact ih db log q hq
    | some v =>
      apply ih
      by_cases hps : p.source = q
      · rw [← hps]
        exact rowsOf_store_self_ne_nil db p.content p.chunkIndex v p.contentHash
          (some p.mtime)
      · rw [rowsOf_store_other db p.content p.chunkIndex v p.contentHash
          (some p.mtime) (fun hqp => hps hqp.symm)]
        exact hq

theorem storePhase_rowsOf_ne_nil_of_slot :
    ∀ (zl : List (PendingChunk × Option (List ℚ))) (db : DB) (log : List Ev)
      (p : PendingChunk) (v : List ℚ), (p, some v) ∈ zl →
      rowsOf (storePhase zl db log).1 p.source ≠ [] := by
  intro zl
  induction zl with
  | nil => intro db log p v hin; exact absurd hin (List.not_mem_nil _)
  | cons pe rest ih =>
    intro db log p v hin
    obtain ⟨p', e'⟩ := pe
    rcases List.mem_cons.mp hin with heq | hin'
    · cases heq
      show rowsOf (storePhase rest
          (store_chunk db p.content p.source p.chunkIndex v p.contentHash
            (some p.mtime)).1
          (log ++ [Ev.ins p.source p.chunkIndex])).1 p.source ≠ []
      apply storePhase_rowsOf_ne_nil_pres
      exact rowsOf_store_self_ne_nil db p.content p.chunkIndex v p.contentHash
        (some p.mtime)
    · cases e' with
      | none => exact ih db log p v hin'
      | some v' => exact ih _ _ p v hin'

theorem storePhase_of_all_none :
    ∀ (zl : List (PendingChunk × Option (List ℚ))) (db : DB) (log : List Ev),
      (∀ pe ∈ zl, pe.2 = none) → storePhase zl db log = (db, log) := by
  intro zl
  induction zl with
  | nil => intro db log _; rfl
  | cons pe rest ih =>
    intro db log hall
    obtain ⟨p, e⟩ := pe
    cases e with
    | none => exact ih db log (fun pe' hpe' => hall pe' (List.mem_cons_of_mem _ hpe'))
    | some v =>
      have := hall (p, some v) (List.mem_cons_self _ _)
      exact Option.noConfusion this

theorem processFile_rowsOf_other (hashf : String → String) (force : Bool)
    (st : ISt) (f : FileInfo) (q : String) (hne : q ≠ f.path) :
    rowsOf (processFile hashf force st f).db q = rowsOf st.db q := by
  unfold processFile
  by_cases hc : (force || file_needs_reindex st.db f) = true
  · rw [if_pos hc]
    exact rowsOf_delete_other st.db q hne
  · rw [if_neg hc]

theorem indexLoop_rowsOf_other (hashf : String → String) (force : Bool) :
    ∀ (fs : List FileInfo) (st : ISt) (q : String),
      ¬ q ∈ fs.map (fun f => f.path) →
      rowsOf (indexLoop hashf force fs st).db q = rowsOf st.db q := by
  intro fs
  induction fs with
  | nil => intro st q _; rfl
  | cons f rest ih =>
    intro st q hq
    have hq1 : q ≠ f.path := by
      intro he
      exact hq (by rw [he]; simp)
    have hq2 : ¬ q ∈ rest.map (fun f => f.path) := by
      intro he
      exact hq (by simp [he])
    show rowsOf (indexLoop hashf force rest (processFile hashf force st f)).db q = _
    rw [ih _ q hq2, processFile_rowsOf_other hashf force st f q hq1]

theorem processFile_pending_filter (hashf : String → String) (force : Bool)
    (st : ISt) (f : FileInfo) (q : String) (hne : q ≠ f.path) :
    (processFile hashf force st f).pending.filter (fun p => decide (p.source = q)) =
      st.pending.filter (fun p => decide (p.source = q)) := by
  unfold processFile
  by_cases hc : (force || file_needs_reindex st.db f) = true
  · rw [if_pos hc]
    show (st.pending ++ _).filter _ = _
    rw [List.filter_append]
    have hnil : (dedupChunks hashf f.mtime (chunk_file f) []).filter
        (fun p => decide (p.source = q)) = [] := by
      apply List.filter_eq_nil_iff.mpr
      intro p hp
      simp only [decide_eq_true_eq]
      rw [dedupChunks_source hashf f [] p hp]
      exact fun he => hne he.symm
    rw [hnil, List.append_nil]
  · rw [if_neg hc]

theorem indexLoop_pending_filter (hashf : String → String) (force : Bool) :
    ∀ (fs : List FileInfo) (st : ISt) (q : String),
      ¬ q ∈ fs.map (fun f => f.path) →
      (indexLoop hashf force fs st).pending.filter (fun p => decide (p.source = q)) =
        st.pending.filter (fun p => decide (p.source = q)) := by
  intro fs
  induction fs with
  | nil => intro st q _; rfl
  | cons f rest ih =>
    intro st q hq
    have hq1 : q ≠ f.path := by
      intro he
      exact hq (by rw [he]; simp)
    have hq2 : ¬ q ∈ rest.map (fun f => f.path) := by
      intro he
      exact hq (by simp [he])
    show (indexLoop hashf force rest (processFile hashf force st f)).pending.filter _ = _
    rw [ih _ q hq2, processFile_pending_filter hashf force st f q hq1]

/-- Per-file characterisation of one pass of the force-less indexing loop:
a file in the (path-distinct) work list is either skipped — its rows are
untouched and it contributes no pending chunks — or re-indexed — its rows
are deleted and its pending contribution is exactly its deduplicated chunk
list. -/
theorem indexLoop_char (hashf : String → String) :
    ∀ (fs : List FileInfo) (st : ISt) (f : FileInfo),
      (fs.map (fun f => f.path)).Nodup → f ∈ fs →
      st.pending.filter (fun p => decide (p.source = f.path)) = [] →
      (file_needs_reindex st.db f = false ∧
        rowsOf (indexLoop hashf false fs st).db f.path = rowsOf st.db f.path ∧
        (indexLoop hashf false fs st).pending.filter
          (fun p => decide (p.source = f.path)) = []) ∨
      (rowsOf (indexLoop hashf false fs st).db f.path = [] ∧
        (indexLoop hashf false fs st).pending.filter
          (fun p => decide (p.source = f.path)) =
          dedupChunks hashf f.mtime (chunk_file f) []) := by
  intro fs
  induction fs with
  | nil => intro st f _ hf _; exact absurd hf (List.not_mem_nil f)
  | cons f₀ rest ih =>
    intro st f hnd hf hpf
    have hnd' : (rest.map (fun f => f.path)).Nodup :=
      (List.nodup_cons.mp (by simpa using hnd)).2
    have hf0notin : ¬ f₀.path ∈ rest.map (fun f => f.path) :=
      (List.nodup_cons.mp (by simpa using hnd)).1
    rcases List.mem_cons.mp hf with rfl | hfr
    · by_cases hneed : file_needs_reindex st.db f = true
      · right
        have hstep : processFile hashf false st f = ⟨(delete_source st.db f.path).1,
            st.pending ++ dedupChunks hashf f.mtime (chunk_file f) [],
            st.log ++ [.del f.path (delete_source st.db f.path).2]⟩ := by
          unfold processFile
          rw [if_pos (by simp [hneed])]
        constructor
        · show rowsOf (indexLoop hashf false rest (processFile hashf false st f)).db
            f.path = []
          rw [indexLoop_rowsOf_other hashf false rest _ f.path hf0notin, hstep]
          exact rowsOf_delete_self st.db f.path
        · show (indexLoop hashf false rest
            (processFile hashf false st f)).pending.filter _ = _
          rw [indexLoop_pending_filter hashf false rest _ f.path hf0notin, hstep]
          show (st.pending ++ _).filter _ = _
          rw [List.filter_append, hpf, List.nil_append]
          apply List.filter_eq_self.mpr
          intro p hp
          simp only [decide_eq_true_eq]
          exact dedupChunks_source hashf f [] p hp
      · left
        have hskip : processFile hashf false st f = st := by
          unfold processFile
          rw [if_neg (by simpa using hneed)]
        refine ⟨by simpa using hneed, ?_, ?_⟩
        · show rowsOf (indexLoop hashf false rest (processFile hashf false st f)).db
            f.path = _
          rw [hskip, indexLoop_rowsOf_other hashf false rest st f.path hf0notin]
        · show (indexLoop hashf false rest
            (processFile hashf false st f)).pending.filter _ = _
          rw [hskip, indexLoop_pending_filter hashf false rest st f.path hf0notin,
            hpf]
    · have hne : f.path ≠ f₀.path := by
        intro he
        apply hf0notin
        rw [← he]
        exact List.mem_map_of_mem _ hfr
      have hrows : rowsOf (processFile hashf false st f₀).db f.path =
          rowsOf st.db f.path :=
        processFile_rowsOf_other hashf false st f₀ f.path hne
      have hpf' : (processFile hashf false st f₀).pending.filter
          (fun p => decide (p.source = f.path)) = [] := by
        rw [processFile_pending_filter hashf false st f₀ f.path hne, hpf]
      have hstep := ih (processFile hashf false st f₀) f hnd' hfr hpf'
      rcases hstep with ⟨h1, h2, h3⟩ | ⟨h1, h2⟩
      · left
        rw [file_needs_reindex_congr hrows] at h1
        exact ⟨h1, by
          show rowsOf (indexLoop hashf false rest (processFile hashf false st f₀)).db
            f.path = _
          rw [h2, hrows], h3⟩
      · right
        exact ⟨h1, h2⟩

/-- On a `GoodFile`-only work list a force-less loop pass never changes the
table: skipped files do nothing and empty-row files produce only
zero-row deletes and pending chunks that will not embed. -/
theorem indexLoop_zero (h : String → Option (List ℚ)) (hashf : String → String) :
    ∀ (fs : List FileInfo) (st : ISt),
      (∀ f ∈ fs, GoodFile h hashf st.db f) →
      (indexLoop hashf false fs st).db = st.db ∧
      (∀ p ∈ (indexLoop hashf false fs st).pending,
        p ∈ st.pending ∨ h p.content = none) ∧
      (∀ e ∈ (indexLoop hashf false fs st).log, e ∈ st.log ∨
        (e.rowsChanged = 0 ∧ ∃ f ∈ fs, e.evPath = f.path ∧ ¬ MtimeOk st.db f)) := by
  intro fs
  induction fs with
  | nil => intro st _; exact ⟨rfl, fun p hp => Or.inl hp, fun e he => Or.inl he⟩
  | cons f rest ih =>
    intro st hgood
    rcases hgood f (List.mem_cons_self f rest) with hok | ⟨hrows, hnone⟩
    · have hneed : file_needs_reindex st.db f = false :=
        (file_needs_reindex_false_iff st.db f).mpr hok
      have hskip : processFile hashf false st f = st := by
        unfold processFile
        rw [if_neg (by simp [hneed])]
      show (indexLoop hashf false rest (processFile hashf false st f)).db = st.db ∧
        (∀ p ∈ (indexLoop hashf false rest (processFile hashf false st f)).pending,
          p ∈ st.pending ∨ h p.content = none) ∧
        (∀ e ∈ (indexLoop hashf false rest (processFile hashf false st f)).log,
          e ∈ st.log ∨ (e.rowsChanged = 0 ∧
            ∃ g ∈ f :: rest, e.evPath = g.path ∧ ¬ MtimeOk st.db g))
      rw [hskip]
      obtain ⟨ih1, ih2, ih3⟩ := ih st (fun g hg => hgood g (List.mem_cons_of_mem f hg))
      refine ⟨ih1, ih2, ?_⟩
      intro e he
      rcases ih3 e he with h' | ⟨h0, g, hg, hgp⟩
      · exact Or.inl h'
      · exact Or.inr ⟨h0, g, List.mem_cons_of_mem f hg, hgp⟩
    · have hdel := delete_source_of_empty hrows
      have hMno : ¬ MtimeOk st.db f := by
        intro hok
        obtain ⟨m, hm, _⟩ := hok
        rw [get_file_mtime_of_rowsOf_nil hrows] at hm
        exact Option.noConfusion hm
      have hneed : file_needs_reindex st.db f = true := by
        unfold file_needs_reindex
        rw [get_file_mtime_of_rowsOf_nil hrows]
      have hstep : processFile hashf false st f = ⟨st.db,
          st.pending ++ dedupChunks hashf f.mtime (chunk_file f) [],
          st.log ++ [.del f.path 0]⟩ := by
        unfold processFile
        rw [if_pos (by simp [hneed])]
        show (⟨(delete_source st.db f.path).1,
          st.pending ++ dedupChunks hashf f.mtime (chunk_file f) [],
          st.log ++ [.del f.path (delete_source st.db f.path).2]⟩ : ISt) = _
        rw [hdel.1, hdel.2]
      show (indexLoop hashf false rest (processFile hashf false st f)).db = st.db ∧
        (∀ p ∈ (indexLoop hashf false rest (processFile hashf false st f)).pending,
          p ∈ st.pending ∨ h p.content = none) ∧
        (∀ e ∈ (indexLoop hashf false rest (processFile hashf false st f)).log,
          e ∈ st.log ∨ (e.rowsChanged = 0 ∧
            ∃ g ∈ f :: rest, e.evPath = g.path ∧ ¬ MtimeOk st.db g))
      rw [hstep]
      obtain ⟨ih1, ih2, ih3⟩ :=
        ih ⟨st.db, st.pending ++ dedupChunks hashf f.mtime (chunk_file f) [],
          st.log ++ [.del f.path 0]⟩
          (fun g hg => hgood g (List.mem_cons_of_mem f hg))
      refine ⟨ih1, ?_, ?_⟩
      · intro p hp
        rcases ih2 p hp with hin | hn
        · rcases List.mem_append.mp hin with h' | h'
          · exact Or.inl h'
          · exact Or.inr (hnone p h')
        · exact Or.inr hn
      · intro e he
        rcases ih3 e he with hin | ⟨h0, g, hg, hgp, hgm⟩
        · rcases List.mem_append.mp hin with h' | h'
          · exact Or.inl h'
          · have he' : e = Ev.del f.path 0 := by simpa using h'
            refine Or.inr ⟨by rw [he']; rfl, f, List.mem_cons_self f rest,
              by rw [he']; rfl, hMno⟩
        · exact Or.inr ⟨h0, g, List.mem_cons_of_mem f hg, hgp, hgm⟩

/-- From a `GoodState`, a force-less `index_directory` run performs zero
row-level writes to the chunks table, and never touches a file whose
stored mtime matches. -/
theorem index_directory_zero (h : String → Option (List ℚ))
    (hashf : String → String) (files : List FileInfo) (db : DB)
    (snap : Option (List (Nat × String × Nat)))
    (hnd : (files.map (fun f => f.path)).Nodup)
    (hgood : GoodState h hashf files db) :
    (∀ e ∈ (index_directory h hashf false files db snap).log, e.rowsChanged = 0) ∧
      (∀ f ∈ files, MtimeOk db f →
        ∀ e ∈ (index_directory h hashf false files db snap).log,
          e.evPath ≠ f.path) := by
  obtain ⟨hsrc, hgf⟩ := hgood
  have horph : (get_indexed_files db).filter
      (fun p => decide (¬ p ∈ files.map (fun f => f.path))) = [] := by
    apply List.filter_eq_nil_iff.mpr
    intro p hp
    simp only [decide_eq_true_eq, not_not]
    rw [get_indexed_files] at hp
    obtain ⟨c, hc, rfl⟩ := List.mem_map.mp (List.mem_dedup.mp hp)
    exact hsrc c hc
  obtain ⟨hldb, hlpend, hllog⟩ :=
    indexLoop_zero h hashf files ⟨db, [], []⟩ hgf
  have hlogfacts : ∀ e ∈ (indexLoop hashf false files ⟨db, [], []⟩).log,
      e.rowsChanged = 0 ∧ ∃ f ∈ files, e.evPath = f.path ∧ ¬ MtimeOk db f := by
    intro e he
    rcases hllog e he with h' | hh
    · exact absurd h' (List.not_mem_nil e)
    · exact hh
  have hfin : ∀ f ∈ files, MtimeOk db f →
      ∀ e ∈ (indexLoop hashf false files ⟨db, [], []⟩).log, e.evPath ≠ f.path := by
    intro f hf hok e he hep
    obtain ⟨-, g, hg, hgp, hgm⟩ := hlogfacts e he
    have hgf' : g = f := by
      apply List.inj_on_of_nodup_map hnd hg hf
      rw [← hgp, hep]
    rw [hgf'] at hgm
    exact hgm hok
  unfold index_directory
  dsimp only
  rw [horph]
  simp only [purgeLoop]
  by_cases hemp : (indexLoop hashf false files ⟨db, [], []⟩).pending.isEmpty
  · rw [if_pos hemp]
    exact ⟨fun e he => (hlogfacts e he).1, hfin⟩
  · rw [if_neg hemp]
    have hzl : ∀ pe ∈ ((indexLoop hashf false files ⟨db, [], []⟩).pending.zip
        (embed_batch h ((indexLoop hashf false files ⟨db, [], []⟩).pending.map
          (fun p => p.content)))), pe.2 = none := by
      intro pe hpe
      rw [embed_batch_eq_map, List.map_map, zip_map_self] at hpe
      obtain ⟨p, hp, rfl⟩ := List.mem_map.mp hpe
      rcases hlpend p hp with h' | h'
      · exact absurd h' (List.not_mem_nil p)
      · exact h'
    rw [storePhase_of_all_none _ _ _ hzl]
    exact ⟨fun e he => (hlogfacts e he).1, hfin⟩

theorem storePhase_skipped_rows (h : String → Option (List ℚ)) (st : ISt)
    (f : FileInfo)
    (hfil : st.pending.filter (fun p => decide (p.source = f.path)) = []) :
    rowsOf (storePhase (st.pending.zip (embed_batch h
        (st.pending.map (fun p => p.content)))) st.db st.log).1 f.path =
      rowsOf st.db f.path := by
  apply storePhase_rowsOf_untouched
  intro pe hpe hsrc
  rw [embed_batch_eq_map, List.map_map, zip_map_self] at hpe
  obtain ⟨p, hp, rfl⟩ := List.mem_map.mp hpe
  have hsp : p.source = f.path := hsrc
  have hnofp := List.filter_eq_nil_iff.mp hfil
  exact absurd (decide_eq_true hsp) (hnofp p hp)

theorem storePhase_reindexed_good (h : String → Option (List ℚ))
    (hashf : String → String) (st : ISt) (f : FileInfo)
    (hrows : rowsOf st.db f.path = [])
    (hfil : st.pending.filter (fun p => decide (p.source = f.path)) =
      dedupChunks hashf f.mtime (chunk_file f) []) :
    GoodFile h hashf (storePhase (st.pending.zip (embed_batch h
      (st.pending.map (fun p => p.content)))) st.db st.log).1 f := by
  by_cases hall : ∀ p ∈ dedupChunks hashf f.mtime (chunk_file f) [],
    h p.content = none
  · refine Or.inr ⟨?_, hall⟩
    have huntouched : rowsOf (storePhase (st.pending.zip (embed_batch h
        (st.pending.map (fun p => p.content)))) st.db st.log).1 f.path =
        rowsOf st.db f.path := by
      apply storePhase_rowsOf_untouched
      intro pe hpe hsrc
      rw [embed_batch_eq_map, List.map_map, zip_map_self] at hpe
      obtain ⟨p, hp, rfl⟩ := List.mem_map.mp hpe
      have hsp : p.source = f.path := hsrc
      have hpf : p ∈ st.pending.filter (fun p => decide (p.source = f.path)) :=
        List.mem_filter.mpr ⟨hp, decide_eq_true hsp⟩
      rw [hfil] at hpf
      exact hall p hpf
    rw [huntouched, hrows]
  · push_neg at hall
    obtain ⟨p, hp, hv⟩ := hall
    obtain ⟨v, hv'⟩ := Option.ne_none_iff_exists'.mp hv
    have hpin : p ∈ st.pending := by
      rw [← hfil] at hp
      exact List.mem_of_mem_filter hp
    have hsrc : p.source = f.path := by
      rw [← hfil] at hp
      have hd := List.of_mem_filter hp
      exact of_decide_eq_true hd
    have hslot : (p, some v) ∈ st.pending.zip (embed_batch h
        (st.pending.map (fun p => p.content))) := by
      rw [embed_batch_eq_map, List.map_map, zip_map_self]
      refine List.mem_map.mpr ⟨p, hpin, ?_⟩
      show (p, h p.content) = (p, some v)
      rw [hv']
    have hnenil := storePhase_rowsOf_ne_nil_of_slot _ st.db st.log p v hslot
    rw [hsrc] at hnenil
    have hmt : ∀ c ∈ rowsOf (storePhase (st.pending.zip (embed_batch h
        (st.pending.map (fun p => p.content)))) st.db st.log).1 f.path,
        c.mtime = some f.mtime := by
      apply storePhase_mtime_uniform
      · intro pe hpe hpes
        rw [embed_batch_eq_map, List.map_map, zip_map_self] at hpe
        obtain ⟨p', hp', rfl⟩ := List.mem_map.mp hpe
        have hsp' : p'.source = f.path := hpes
        have hpf : p' ∈ st.pending.filter (fun p => decide (p.source = f.path)) :=
          List.mem_filter.mpr ⟨hp', decide_eq_true hsp'⟩
        rw [hfil] at hpf
        exact dedupChunks_mtime hashf f.mtime _ [] p' hpf
      · rw [hrows]
        intro c hc
        exact absurd hc (List.not_mem_nil c)
    refine Or.inl ⟨f.mtime, ?_, ?_⟩
    · rw [get_file_mtime_eq_rowsOf]
      obtain ⟨c₀, t, hct⟩ := List.exists_cons_of_ne_nil hnenil
      rw [hct]
      show c₀.mtime = some f.mtime
      exact hmt c₀ (by rw [hct]; exact List.mem_cons_self c₀ t)
    · rw [sub_self, abs_zero]
      norm_num

/-- After any force-less run, the resulting table is a `GoodState` for the
same file list: every row's source is a current file, and every current
file is either mtime-matched or row-free with all its chunks failing to
embed. -/
theorem index_directory_good (h : String → Option (List ℚ))
    (hashf : String → String) (files : List FileInfo) (db0 : DB)
    (snap0 : Option (List (Nat × String × Nat)))
    (hnd : (files.map (fun f => f.path)).Nodup) :
    GoodState h hashf files (index_directory h hashf false files db0 snap0).db := by
  constructor
  · intro c hc
    revert hc
    unfold index_directory
    dsimp only
    have hpurge : ∀ c ∈ (purgeLoop ((get_indexed_files db0).filter
        (fun p => decide (¬ p ∈ files.map (fun f => f.path)))) db0 []).1.chunks,
        c.source ∈ files.map (fun f => f.path) := by
      intro c hc
      obtain ⟨hmem, hnot⟩ := purge_mem _ db0 [] c hc
      by_contra hns
      apply hnot
      apply List.mem_filter.mpr
      refine ⟨?_, by simpa using hns⟩
      rw [get_indexed_files]
      exact List.mem_dedup.mpr (List.mem_map.mpr ⟨c, hmem, rfl⟩)
    by_cases hemp : (indexLoop hashf false files
        ⟨(purgeLoop ((get_indexed_files db0).filter
            (fun p => decide (¬ p ∈ files.map (fun f => f.path)))) db0 []).1, [],
          (purgeLoop ((get_indexed_files db0).filter
            (fun p => decide (¬ p ∈ files.map (fun f => f.path)))) db0 []).2⟩).pending.isEmpty
    · rw [if_pos hemp]
      intro hc
      exact hpurge c (indexLoop_db_mem hashf false files _ c hc)
    · rw [if_neg hemp]
      intro hc
      rcases storePhase_mem _ _ _ c hc with hcase | ⟨pe, hpe, hsrc⟩
      · exact hpurge c (indexLoop_db_mem hashf false files _ c hcase)
      · rw [hsrc]
        have hp1 := (List.of_mem_zip hpe).1
        rcases indexLoop_pending_mem hashf false files _ pe.1 hp1 with h' | h'
        · exact absurd h' (List.not_mem_nil pe.1)
        · exact h'
  · intro f hf
    unfold index_directory
    dsimp only
    have hchar := indexLoop_char hashf files
      ⟨(purgeLoop ((get_indexed_files db0).filter
          (fun p => decide (¬ p ∈ files.map (fun f => f.path)))) db0 []).1, [],
        (purgeLoop ((get_indexed_files db0).filter
          (fun p => decide (¬ p ∈ files.map (fun f => f.path)))) db0 []).2⟩
      f hnd hf rfl
    by_cases hemp : (indexLoop hashf false files
        ⟨(purgeLoop ((get_indexed_files db0).filter
            (fun p => decide (¬ p ∈ files.map (fun f => f.path)))) db0 []).1, [],
          (purgeLoop ((get_indexed_files db0).filter
            (fun p => decide (¬ p ∈ files.map (fun f => f.path)))) db0 []).2⟩).pending.isEmpty
    · rw [if_pos hemp]
      have hpnil := List.isEmpty_iff.mp hemp
      rcases hchar with ⟨hn, hrows, -⟩ | ⟨hrows, hfil⟩
      · exact Or.inl (MtimeOk_congr hrows ((file_needs_reindex_false_iff _ f).mp hn))
      · refine Or.inr ⟨hrows, ?_⟩
        intro p hp
        rw [← hfil, hpnil] at hp
        exact absurd hp (List.not_mem_nil p)
    · rw [if_neg hemp]
      rcases hchar with ⟨hn, hrows, hfil⟩ | ⟨hrows, hfil⟩
      · exact Or.inl (MtimeOk_congr
          ((storePhase_skipped_rows h _ f hfil).trans hrows)
          ((file_needs_reindex_false_iff _ f).mp hn))
      · exact storePhase_reindexed_good h hashf _ f hrows hfil

/-- C4: over an unchanged directory (same file list, distinct paths, same
deterministic embedding service), the second of two successive force-less
`index_directory` runs performs zero row-level writes to the chunks table:
every event it logs changes zero rows (no insert happens, every
`delete_source` call deletes nothing); any file whose stored mtime is
within `0.01` s of its current mtime is skipped without any
`delete_source` or `store_chunk` call touching its path; and a file is
re-indexed iff `force` is set, no stored mtime exists, or the mtimes
differ by more than `0.01` s. -/
theorem c4_idempotent_reindex (h : String → Option (List ℚ))
    (hashf : String → String) (files : List FileInfo) (db0 : DB)
    (snap0 : Option (List (Nat × String × Nat)))
    (hnd : (files.map (fun f => f.path)).Nodup) :
    (∀ e ∈ (index_directory h hashf false files
        (index_directory h hashf false files db0 snap0).db
        (index_directory h hashf false files db0 snap0).snap).log,
      e.rowsChanged = 0) ∧
      (∀ f ∈ files, MtimeOk (index_directory h hashf false files db0 snap0).db f →
        ∀ e ∈ (index_directory h hashf false files
            (index_directory h hashf false files db0 snap0).db
            (index_directory h hashf false files db0 snap0).snap).log,
          e.evPath ≠ f.path) ∧
      (∀ (force : Bool) (db : DB) (g : FileInfo),
        (force || file_needs_reindex db g) = true ↔
          (force = true ∨ get_file_mtime db g.path = none ∨
            ∃ m, get_file_mtime db g.path = some m ∧ |g.mtime - m| > 1/100)) := by
  obtain ⟨hz1, hz2⟩ := index_directory_zero h hashf files
    (index_directory h hashf false files db0 snap0).db
    (index_directory h hashf false files db0 snap0).snap hnd
    (index_directory_good h hashf files db0 snap0 hnd)
  refine ⟨hz1, hz2, ?_⟩
  intro force db g
  cases force with
  | true => simp
  | false =>
    simp only [Bool.false_or]
    constructor
    · intro ht
      right
      cases hg : get_file_mtime db g.path with
      | none => exact Or.inl rfl
      | some m =>
        right
        refine ⟨m, rfl, ?_⟩
        by_contra habs
        have hok : MtimeOk db g := ⟨m, hg, not_lt.mp habs⟩
        rw [(file_needs_reindex_false_iff db g).mpr hok] at ht
        exact absurd ht (by simp)
    · intro hd
      rcases hd with hfalse | hnone | ⟨m, hm, habs⟩
      · exact absurd hfalse (by simp)
      · unfold file_needs_reindex
        rw [hnone]
      · cases hff : file_needs_reindex db g with
        | true => rfl
        | false =>
          obtain ⟨m', hm', hle'⟩ := (file_needs_reindex_false_iff db g).mp hff
          rw [hm, Option.some.injEq] at hm'
          rw [← hm'] at hle'
          exact absurd habs (not_lt.mpr hle')

/-- C4 witness: two successive runs over a one-file directory; the second
run's log changes zero rows. -/
theorem c4_idempotent_reindex_witness :
    ((index_directory (fun _ => some [1]) (fun s => s) false
        [⟨"a.md", 10, "", ["x"]⟩]
        (index_directory (fun _ => some [1]) (fun s => s) false
          [⟨"a.md", 10, "", ["x"]⟩] ⟨[], 0⟩ none).db
        (index_directory (fun _ => some [1]) (fun s => s) false
          [⟨"a.md", 10, "", ["x"]⟩] ⟨[], 0⟩ none).snap).log.all
      (fun e => decide (e.rowsChanged = 0))) = true := by
  have hrun := (c4_idempotent_reindex (fun _ => some [1]) (fun s => s)
    [⟨"a.md", 10, "", ["x"]⟩] ⟨[], 0⟩ none (by decide)).1
  rw [List.all_eq_true]
  intro e he
  exact decide_eq_true (hrun e he)

end ThoughtVault
